import Mathlib

/-!
# Verification of the event-log analyzer core

A shallow embedding, over `List Char`, of the core functions of the
AI-powered Windows event-log analyzer:

* `src/utils/parser.py` — `parse_log` and its helpers (`_is_xml_like`,
  `_extract_events_from_xml`, `_split_by_blank_lines`, `_split_by_timestamp`)
  and `summarize_event`;
* `src/api/ai_explainer.py` — `parse_gemini_response` and `get_explanation`;
* `src/utils/win_event_reader.py` — `_format_win32_event`,
  `_parse_wevtutil_output_block`, `_read_with_pywin32`, `_read_with_wevtutil`
  and `read_windows_event_log`.

Modelling conventions:

* Python `str` values are modelled as `List Char`.  Python whitespace
  handling (`str.strip`, `str.splitlines`, the regex class `\s`) is modelled
  over the ASCII control whitespace characters plus NEL and the Unicode line
  and paragraph separators; `\d` is modelled as an ASCII digit.
* The external XML parser `xml.etree.ElementTree.fromstring` is an external
  C library; it is modelled as an arbitrary function
  `List Char → Option XElem` supplied through the `XmlLib` structure
  (`none` models `ET.ParseError`, which the source catches).  Every theorem
  about `parse_log` is proved for an arbitrary such parser.
* The regular expressions that appear literally in the source
  (`_TIMESTAMP_PATTERNS`, `re.sub(r"\s+", " ")`, `re.sub(r"\s+\n", "\n")`,
  `re.split(r"\n\s*\n+")`, `re.sub(r"<[^>]+>", " ")`, the XML block regex,
  and the sentence-cut regex of `summarize_event`) are implemented
  concretely, following Python's leftmost / greedy / lazy match semantics.
* Exceptions are modelled with `Except` / `Option`; code that cannot raise
  is modelled by total functions.
-/

set_option maxHeartbeats 1000000
set_option maxRecDepth 8192

namespace LogAnalyzer

/-! ## Python string primitives -/

/-- U+2028 LINE SEPARATOR. -/
def lineSep : Char := Char.ofNat 8232

/-- U+2029 PARAGRAPH SEPARATOR. -/
def paraSep : Char := Char.ofNat 8233

/-- Python `str.isspace` / regex `\s` on the characters this development
uses: ASCII whitespace and separator controls, NEL, and the Unicode line
and paragraph separators. -/
def pyIsSpace (c : Char) : Bool :=
  c = ' ' || c = '\t' || c = '\n' || c = '\r' ||
  c = '\x0b' || c = '\x0c' ||
  c = '\x1c' || c = '\x1d' || c = '\x1e' || c = '\x1f' ||
  c = '\x85' || c = lineSep || c = paraSep

/-- The characters at which Python `str.splitlines` breaks a line
(`\r\n` is handled as a unit by `pySplitlines`). -/
def isLineBreak (c : Char) : Bool :=
  c = '\n' || c = '\r' || c = '\x0b' || c = '\x0c' ||
  c = '\x1c' || c = '\x1d' || c = '\x1e' ||
  c = '\x85' || c = lineSep || c = paraSep

/-- Python `str.lstrip()`. -/
def pyLStrip (l : List Char) : List Char := l.dropWhile pyIsSpace

/-- Python `str.rstrip()`. -/
def pyRStrip (l : List Char) : List Char := (l.reverse.dropWhile pyIsSpace).reverse

/-- Python `str.strip()`. -/
def pyStrip (l : List Char) : List Char := pyRStrip (pyLStrip l)

/-- Auxiliary for `pySplitlines`; `cur` holds the current line reversed. -/
def pySplitlinesAux : List Char → List Char → List (List Char)
  | [], cur => if cur = [] then [] else [cur.reverse]
  | '\r' :: '\n' :: rest, cur => cur.reverse :: pySplitlinesAux rest []
  | c :: rest, cur =>
    if isLineBreak c then cur.reverse :: pySplitlinesAux rest []
    else pySplitlinesAux rest (c :: cur)

/-- Python `str.splitlines()`. -/
def pySplitlines (l : List Char) : List (List Char) := pySplitlinesAux l []

/-- Fueled worker for `collapseWs`; every step consumes at least one
character, so fuel equal to the input length always suffices (the `0`
fallback is unreachable then).  Structural recursion on the fuel keeps the
definition kernel-reducible. -/
def collapseWsAux : Nat → List Char → List Char
  | _, [] => []
  | 0, l => l
  | fuel + 1, c :: cs =>
    if pyIsSpace c then ' ' :: collapseWsAux fuel (cs.dropWhile pyIsSpace)
    else c :: collapseWsAux fuel cs

/-- Python `re.sub(r"\s+", " ", s)`: replace every maximal whitespace run
with a single space. -/
def collapseWs (l : List Char) : List Char := collapseWsAux l.length l

/-- `re.sub(r"\s+", " ", s).strip()`, a combination the source uses
repeatedly. -/
def collapseStrip (l : List Char) : List Char := pyStrip (collapseWs l)

/-- Python `"sep".join(pieces)`. -/
def joinWith (sep : List Char) : List (List Char) → List Char
  | [] => []
  | [x] => x
  | x :: y :: rest => x ++ sep ++ joinWith sep (y :: rest)

/-- Python substring test `needle in hay`. -/
def pyContains (hay needle : List Char) : Bool :=
  needle.isPrefixOf hay ||
  match hay with
  | [] => false
  | _ :: t => pyContains t needle

/-! ### Basic lemmas about the primitives -/

theorem mem_dropWhile_of_not {p : Char → Bool} {l : List Char} {c : Char}
    (hc : c ∈ l) (hs : ¬ p c) : c ∈ l.dropWhile p := by
  induction l with
  | nil => cases hc
  | cons a as ih =>
    by_cases ha : p a
    · rcases List.mem_cons.mp hc with rfl | h
      · exact absurd ha hs
      · simpa [List.dropWhile_cons, ha] using ih h
    · simpa [List.dropWhile_cons, ha] using hc

theorem mem_of_mem_dropWhile {p : Char → Bool} {l : List Char} {c : Char}
    (hc : c ∈ l.dropWhile p) : c ∈ l := by
  induction l with
  | nil => simpa [List.dropWhile] using hc
  | cons a as ih =>
    by_cases ha : p a
    · rw [List.dropWhile_cons, if_pos ha] at hc
      exact List.mem_cons_of_mem _ (ih hc)
    · rw [List.dropWhile_cons, if_neg ha] at hc
      exact hc

theorem pyLStrip_eq_nil_iff (l : List Char) :
    pyLStrip l = [] ↔ ∀ c ∈ l, pyIsSpace c := by
  unfold pyLStrip
  exact List.dropWhile_eq_nil_iff

theorem pyRStrip_eq_nil_iff (l : List Char) :
    pyRStrip l = [] ↔ ∀ c ∈ l, pyIsSpace c := by
  unfold pyRStrip
  rw [List.reverse_eq_nil_iff, List.dropWhile_eq_nil_iff]
  constructor
  · intro h c hc; exact h c (List.mem_reverse.mpr hc)
  · intro h c hc; exact h c (List.mem_reverse.mp hc)

theorem pyStrip_eq_nil_iff (l : List Char) :
    pyStrip l = [] ↔ ∀ c ∈ l, pyIsSpace c := by
  unfold pyStrip
  rw [pyRStrip_eq_nil_iff]
  constructor
  · intro h c hc
    by_cases hs : pyIsSpace c
    · exact hs
    · exact h c (mem_dropWhile_of_not hc hs)
  · intro h c hc
    exact h c (mem_of_mem_dropWhile hc)

theorem mem_pyLStrip_of_not_space {l : List Char} {c : Char}
    (hc : c ∈ l) (hs : ¬ pyIsSpace c) : c ∈ pyLStrip l :=
  mem_dropWhile_of_not hc hs

theorem pyStrip_ne_nil_of_mem {l : List Char} {c : Char}
    (hc : c ∈ l) (hs : ¬ pyIsSpace c) : pyStrip l ≠ [] := by
  rw [Ne, pyStrip_eq_nil_iff]
  intro h
  exact hs (h c hc)

theorem exists_not_space_of_pyStrip_ne_nil {l : List Char}
    (h : pyStrip l ≠ []) : ∃ c ∈ l, ¬ pyIsSpace c := by
  by_contra hall
  push_neg at hall
  exact h ((pyStrip_eq_nil_iff l).mpr (by simpa using hall))

theorem pyLStrip_idem (l : List Char) : pyLStrip (pyLStrip l) = pyLStrip l := by
  unfold pyLStrip
  induction l with
  | nil => simp
  | cons c cs ih =>
    by_cases h : pyIsSpace c
    · simpa [List.dropWhile_cons, h] using ih
    · simp [List.dropWhile_cons, h]

theorem pyRStrip_idem (l : List Char) : pyRStrip (pyRStrip l) = pyRStrip l := by
  show pyRStrip ((l.reverse.dropWhile pyIsSpace).reverse) = _
  unfold pyRStrip
  rw [List.reverse_reverse]
  rw [show (l.reverse.dropWhile pyIsSpace).dropWhile pyIsSpace
        = pyLStrip (pyLStrip l.reverse) from rfl]
  rw [pyLStrip_idem]
  rfl

/-- `rstrip` removes a whitespace-only suffix: the remaining part is an
initial segment of the input. -/
theorem pyRStrip_append (l : List Char) :
    ∃ t, l = pyRStrip l ++ t ∧ ∀ c ∈ t, pyIsSpace c := by
  refine ⟨(l.reverse.takeWhile pyIsSpace).reverse, ?_, ?_⟩
  · have h2 := congrArg List.reverse (List.takeWhile_append_dropWhile pyIsSpace l.reverse)
    rw [List.reverse_append, List.reverse_reverse] at h2
    exact h2.symm
  · intro c hc
    exact List.mem_takeWhile_imp (List.mem_reverse.mp hc)

theorem pyLStrip_head_not_space {l : List Char} {a : Char} {t : List Char}
    (h : pyLStrip l = a :: t) : ¬ pyIsSpace a := by
  induction l with
  | nil => simp [pyLStrip] at h
  | cons c cs ih =>
    by_cases hc : pyIsSpace c
    · exact ih (by simpa [pyLStrip, List.dropWhile_cons, hc] using h)
    · rw [pyLStrip, List.dropWhile_cons, if_neg hc] at h
      cases h
      exact hc

theorem pyStrip_idem (l : List Char) : pyStrip (pyStrip l) = pyStrip l := by
  unfold pyStrip
  rcases hcase : pyRStrip (pyLStrip l) with _ | ⟨a, t⟩
  · simp [pyLStrip, pyRStrip]
  · have hhead : ¬ pyIsSpace a := by
      obtain ⟨u, hu, -⟩ := pyRStrip_append (pyLStrip l)
      rw [hcase] at hu
      exact pyLStrip_head_not_space (t := t ++ u) (by simpa using hu)
    have hl2 : pyLStrip (a :: t) = a :: t := by
      rw [pyLStrip, List.dropWhile_cons, if_neg hhead]
    rw [hl2, ← hcase, pyRStrip_idem, hcase]

theorem collapseStrip_stripped (l : List Char) :
    pyStrip (collapseStrip l) = collapseStrip l := pyStrip_idem _

theorem mem_collapseWsAux_of_not_space {c : Char} (hs : ¬ pyIsSpace c) :
    ∀ (fuel : Nat) (l : List Char), l.length ≤ fuel → c ∈ l →
      c ∈ collapseWsAux fuel l := by
  intro fuel
  induction fuel with
  | zero =>
    intro l hl hc
    rw [Nat.le_zero, List.length_eq_zero] at hl
    subst hl; cases hc
  | succ n ih =>
    intro l hl hc
    match l with
    | [] => cases hc
    | a :: as =>
      by_cases ha : pyIsSpace a
      · rw [collapseWsAux, if_pos ha]
        rcases List.mem_cons.mp hc with rfl | h
        · exact absurd ha hs
        · refine List.mem_cons_of_mem _ (ih _ ?_ (mem_dropWhile_of_not h hs))
          calc (as.dropWhile pyIsSpace).length
              ≤ as.length := (List.dropWhile_sublist pyIsSpace (l := as)).length_le
            _ ≤ n := Nat.le_of_succ_le_succ hl
      · rw [collapseWsAux, if_neg ha]
        rcases List.mem_cons.mp hc with rfl | h
        · exact List.mem_cons_self _ _
        · exact List.mem_cons_of_mem _ (ih _ (Nat.le_of_succ_le_succ hl) h)

theorem mem_collapseWs_of_not_space {l : List Char} {c : Char}
    (hc : c ∈ l) (hs : ¬ pyIsSpace c) : c ∈ collapseWs l :=
  mem_collapseWsAux_of_not_space hs l.length l (Nat.le_refl _) hc

theorem collapseStrip_ne_nil_of_mem {l : List Char} {c : Char}
    (hc : c ∈ l) (hs : ¬ pyIsSpace c) : collapseStrip l ≠ [] :=
  pyStrip_ne_nil_of_mem (mem_collapseWs_of_not_space hc hs) hs

/-! ## `src/utils/parser.py` — the segmentation cascade -/

/-- `\d` of the timestamp regexes (modelled as an ASCII digit). -/
def isDig (c : Char) : Bool := c.isDigit

/-- Consume exactly `n` digits. -/
def eatDigits : Nat → List Char → Option (List Char)
  | 0, l => some l
  | n + 1, c :: cs => if isDig c then eatDigits n cs else none
  | _ + 1, [] => none

/-- Consume one literal character. -/
def eatChar (ch : Char) : List Char → Option (List Char)
  | c :: cs => if c = ch then some cs else none
  | [] => none

/-- Match `\d{4}-\d{2}-\d{2} \d{2}:\d{2}:\d{2}` at the head of `l`
(first `_TIMESTAMP_PATTERNS` entry). -/
def matchISOAt (l : List Char) : Bool :=
  (do
    let l ← eatDigits 4 l
    let l ← eatChar '-' l
    let l ← eatDigits 2 l
    let l ← eatChar '-' l
    let l ← eatDigits 2 l
    let l ← eatChar ' ' l
    let l ← eatDigits 2 l
    let l ← eatChar ':' l
    let l ← eatDigits 2 l
    let l ← eatChar ':' l
    let _ ← eatDigits 2 l
    pure ()).isSome

/-- Match the mandatory core `\d{1,2}/\d{1,2}/\d{4} \d{1,2}:\d{2}` of the
second `_TIMESTAMP_PATTERNS` entry at the head of `l`.  The trailing
`(?:[:\d{2}]*)?(?:\s?[AP]M)?` of the source pattern always matches the
empty string, so for the truthiness test done by `_TIMESTAMP_RE.search`
the pattern matches exactly when this core does; `\d{1,2}` is modelled by
trying both lengths, which is what regex backtracking does. -/
def matchUSAt (l : List Char) : Bool :=
  (List.range 2).any fun a =>
    (List.range 2).any fun b =>
      (List.range 2).any fun c =>
        (do
          let l ← eatDigits (a + 1) l
          let l ← eatChar '/' l
          let l ← eatDigits (b + 1) l
          let l ← eatChar '/' l
          let l ← eatDigits 4 l
          let l ← eatChar ' ' l
          let l ← eatDigits (c + 1) l
          let l ← eatChar ':' l
          let _ ← eatDigits 2 l
          pure ()).isSome

/-- Match `\d{1,2}-\d{1,2}-\d{4} \d{2}:\d{2}:\d{2}` at the head of `l`
(third `_TIMESTAMP_PATTERNS` entry). -/
def matchEUAt (l : List Char) : Bool :=
  (List.range 2).any fun a =>
    (List.range 2).any fun b =>
      (do
        let l ← eatDigits (a + 1) l
        let l ← eatChar '-' l
        let l ← eatDigits (b + 1) l
        let l ← eatChar '-' l
        let l ← eatDigits 4 l
        let l ← eatChar ' ' l
        let l ← eatDigits 2 l
        let l ← eatChar ':' l
        let l ← eatDigits 2 l
        let l ← eatChar ':' l
        let _ ← eatDigits 2 l
        pure ()).isSome

/-- Match `^\d{2}:\d{2}:\d{2}` (fourth `_TIMESTAMP_PATTERNS` entry); the
`^` anchor restricts it to the start of the searched string, since the
strings searched are single lines and contain no newline. -/
def matchTimeAt (l : List Char) : Bool :=
  (do
    let l ← eatDigits 2 l
    let l ← eatChar ':' l
    let l ← eatDigits 2 l
    let l ← eatChar ':' l
    let _ ← eatDigits 2 l
    pure ()).isSome

/-- Does one of the unanchored timestamp patterns match at some position? -/
def anySuffixTs : List Char → Bool
  | [] => false
  | l@(_ :: t) => matchISOAt l || matchUSAt l || matchEUAt l || anySuffixTs t

/-- Truthiness of `_TIMESTAMP_RE.search(s)`: some pattern of
`_TIMESTAMP_PATTERNS` matches somewhere in `s` (`^` pattern only at the
start). -/
def tsSearch (s : List Char) : Bool :=
  matchTimeAt s || anySuffixTs s

/-- The per-line timestamp test of `_split_by_timestamp`:
`_TIMESTAMP_RE.search(line[:50] if len(line) > 50 else line)`. -/
def tsHit (line : List Char) : Bool := tsSearch (line.take 50)

/-- One greedy replacement step of `re.sub(r"\s+\n", "\n", s)`: from the
start of `l`, the largest `k ≥ 1` such that the first `k` characters are
whitespace and the character at index `k` is a newline; returns the
remainder after that newline.  Scans the whitespace run, remembering the
rest after the most recent newline. -/
def wsNlRun : List Char → Option (List Char) → Option (List Char)
  | [], best => best
  | c :: rest, best =>
    if c = '\n' then wsNlRun rest (some rest)
    else if pyIsSpace c then wsNlRun rest best
    else best

theorem wsNlRun_rec : ∀ {l : List Char} {best r : Option (List Char)} (_ : wsNlRun l best = r)
    (_ : r.isSome), (∃ s, r = some s ∧ s.length < l.length) ∨ best = r := by
  intro l
  induction l with
  | nil => intro best r h _; right; exact h
  | cons c cs ih =>
    intro best r h hs
    by_cases hnl : c = '\n'
    · rw [wsNlRun, if_pos hnl] at h
      rcases ih h hs with ⟨s, hse, hlt⟩ | heq
      · exact Or.inl ⟨s, hse, Nat.lt_succ_of_lt hlt⟩
      · refine Or.inl ⟨cs, ?_, Nat.lt_succ_self _⟩
        rw [← heq]
    · by_cases hsp : pyIsSpace c
      · rw [wsNlRun, if_neg hnl, if_pos hsp] at h
        rcases ih h hs with ⟨s, hse, hlt⟩ | heq
        · exact Or.inl ⟨s, hse, Nat.lt_succ_of_lt hlt⟩
        · exact Or.inr heq
      · rw [wsNlRun, if_neg hnl, if_neg hsp] at h
        exact Or.inr h

theorem wsNlRun_shrink {l r : List Char} (h : wsNlRun l none = some r) :
    r.length < l.length := by
  rcases wsNlRun_rec h (by simp) with ⟨s, hse, hlt⟩ | heq
  · cases hse; exact hlt
  · cases heq

/-- Fueled worker for `subWsNl` (fuel equal to the input length always
suffices; structural recursion keeps it kernel-reducible). -/
def subWsNlAux : Nat → List Char → List Char
  | _, [] => []
  | 0, l => l
  | fuel + 1, c :: cs =>
    if pyIsSpace c then
      match wsNlRun cs none with
      | some rest => '\n' :: subWsNlAux fuel rest
      | none => c :: subWsNlAux fuel cs
    else c :: subWsNlAux fuel cs

/-- `re.sub(r"\s+\n", "\n", s)`: left-to-right, replace each greedy match
of a non-empty whitespace run followed by a newline with a single newline
(the trailing newline of the match is the last newline of the whitespace
run, by greediness of `\s+` with backtracking into `\n`). -/
def subWsNl (l : List Char) : List Char := subWsNlAux l.length l

/-- `_split_by_timestamp`'s grouping loop (`parser.py` lines 102-125):
`current` is the event being accumulated, in order. -/
def splitByTsAux : List (List Char) → List (List Char) → List (List Char)
  | [], current => if current = [] then [] else [pyStrip (joinWith ['\n'] current)]
  | ln :: rest, current =>
    if pyStrip ln = [] then
      if current = [] then splitByTsAux rest current
      else splitByTsAux rest (current ++ [[]])
    else if tsHit ln then
      if current = [] then splitByTsAux rest [pyRStrip ln]
      else pyStrip (joinWith ['\n'] current) :: splitByTsAux rest [pyRStrip ln]
    else splitByTsAux rest (current ++ [pyRStrip ln])

/-- `_split_by_timestamp(lines)` (`parser.py` lines 96-128), including the
final post-processing list comprehension. -/
def splitByTimestamp (lines : List (List Char)) : List (List Char) :=
  (splitByTsAux lines []).filterMap fun ev =>
    if ev ≠ [] ∧ pyStrip ev ≠ [] then some (pyStrip (subWsNl ev)) else none

/-- Fueled worker for the split of `re.split(r"\n\s*\n+", ...)`: at an
initial `\n`, greedily consume `\s*\n+` — this succeeds when the
whitespace run after that newline contains at least one further newline,
and the match ends after the last newline of the run; `cur` is the piece
accumulated so far, reversed.  Fuel equal to the input length always
suffices; structural recursion keeps it kernel-reducible. -/
def splitBlankAux : Nat → List Char → List Char → List (List Char)
  | _, [], cur => [cur.reverse]
  | 0, l, cur => [cur.reverse ++ l]
  | fuel + 1, c :: rest, cur =>
    if c = '\n' then
      match wsNlRun rest none with
      | some restAfter => cur.reverse :: splitBlankAux fuel restAfter []
      | none => splitBlankAux fuel rest ('\n' :: cur)
    else splitBlankAux fuel rest (c :: cur)

/-- `_split_by_blank_lines(text)` (`parser.py` lines 90-93). -/
def splitByBlankLines (text : List Char) : List (List Char) :=
  (splitBlankAux text.length text []).filterMap fun b =>
    if b ≠ [] ∧ pyStrip b ≠ [] then some (pyStrip b) else none

/-! ### XML extraction (`_is_xml_like`, `_extract_events_from_xml`) -/

/-- `_is_xml_like(text)` (`parser.py` lines 42-46). -/
def isXmlLike (text : List Char) : Bool :=
  pyContains text "<Event".data || pyContains text "<EventRecord".data ||
  "<?xml".data.isPrefixOf (pyStrip text)

/-- An `xml.etree.ElementTree` element: tag name, optional `.text`, and
child elements in document order (`.tail` text is never read by the
source, so it is not modelled). -/
inductive XElem where
  | mk (tag : List Char) (text : Option (List Char)) (children : List XElem)

def XElem.tag : XElem → List Char
  | .mk t _ _ => t

def XElem.text : XElem → Option (List Char)
  | .mk _ tx _ => tx

def XElem.children : XElem → List XElem
  | .mk _ _ cs => cs

theorem sizeOf_lt_of_mem_children {e c : XElem} (h : c ∈ e.children) :
    sizeOf c < sizeOf e := by
  cases e with
  | mk t tx cs =>
    have hlt := List.sizeOf_lt_of_mem (show c ∈ cs from h)
    simp only [XElem.mk.sizeOf_spec]
    omega

/-- `root.findall(".//" + tag)`: all strict descendants with the given
tag, in document order. -/
def findDesc (tag : List Char) (e : XElem) : List XElem :=
  e.children.attach.flatMap fun c =>
    (if c.1.tag = tag then [c.1] else []) ++ findDesc tag c.1
termination_by sizeOf e
decreasing_by
  simp_wf
  exact sizeOf_lt_of_mem_children c.2

/-- The `pieces` loop of `_extract_events_from_xml` (lines 79-82): for
each node of `event_el.iter()` (the element itself, then descendants in
document order), if `node.text` is truthy and strips non-empty, collect
`node.text.strip()`. -/
def collectPieces (e : XElem) : List (List Char) :=
  (match e.text with
   | some t => if t ≠ [] ∧ pyStrip t ≠ [] then [pyStrip t] else []
   | none => []) ++
  e.children.attach.flatMap fun c => collectPieces c.1
termination_by sizeOf e
decreasing_by
  simp_wf
  exact sizeOf_lt_of_mem_children c.2

/-- The external XML parser `xml.etree.ElementTree.fromstring`: an
arbitrary total function; `none` models `ET.ParseError` (which the source
catches and turns into the regex fallback). -/
structure XmlLib where
  fromstring : List Char → Option XElem

/-- `re.sub(r"<[^>]+>", " ", block)`: replace every `<`, at least one
non-`>` character, `>` span by a single space (leftmost, non-overlapping).
`gtSplit l` splits `l` at its first `>`. -/
def gtSplit : List Char → Option (List Char × List Char)
  | [] => none
  | c :: cs =>
    if c = '>' then some ([], cs)
    else (gtSplit cs).map fun p => (c :: p.1, p.2)

theorem gtSplit_shrink : ∀ {l mid rest : List Char}, gtSplit l = some (mid, rest) →
    rest.length < l.length ∧ l = mid ++ '>' :: rest := by
  intro l
  induction l with
  | nil => intro mid rest h; simp [gtSplit] at h
  | cons c cs ih =>
    intro mid rest h
    by_cases hc : c = '>'
    · rw [gtSplit, if_pos hc] at h
      cases h
      subst hc
      exact ⟨Nat.lt_succ_self _, rfl⟩
    · rw [gtSplit, if_neg hc] at h
      match hsub : gtSplit cs with
      | none => rw [hsub] at h; cases h
      | some (m, r) =>
        rw [hsub, Option.map_some'] at h
        cases h
        obtain ⟨hlt, heq⟩ := ih hsub
        exact ⟨Nat.lt_succ_of_lt hlt, by rw [List.cons_append, ← heq]⟩

/-- `re.sub(r"<[^>]+>", " ", block)` itself. -/
def stripTags : List Char → List Char
  | [] => []
  | c :: cs =>
    if c = '<' then
      match h : gtSplit cs with
      | some (mid, rest) =>
        if mid = [] then c :: stripTags cs else ' ' :: stripTags rest
      | none => c :: stripTags cs
    else c :: stripTags cs
termination_by l => l.length
decreasing_by
  all_goals simp_wf
  all_goals first
    | exact Nat.lt_succ_of_lt (gtSplit_shrink h).1
    | exact Nat.lt_succ_self _

/-- Case-insensitive literal match at the head (`re.IGNORECASE` on
ASCII). -/
def ciPrefix : List Char → List Char → Option (List Char)
  | [], l => some l
  | _ :: _, [] => none
  | p :: ps, c :: cs => if p.toLower = c.toLower then ciPrefix ps cs else none

/-- A regex word character, for the `\b` boundary in the XML block
pattern. -/
def isWordChar (c : Char) : Bool :=
  c.isAlpha || c.isDigit || c = '_'

/-- After `<`, match `(?:Event|EventRecord)\b` case-insensitively.  The
two alternatives are mutually exclusive once the `\b` is taken into
account ("Event" succeeds with a boundary exactly when the next character
is a non-word character, in which case "EventRecord" cannot match). -/
def matchEventName (l : List Char) : Option (List Char) :=
  match ciPrefix "EventRecord".data l with
  | some rest =>
    if (match rest with | [] => true | c :: _ => ¬ isWordChar c) then some rest else none
  | none =>
    match ciPrefix "Event".data l with
    | some rest =>
      if (match rest with | [] => true | c :: _ => ¬ isWordChar c) then some rest else none
    | none => none

/-- Scan for the first case-insensitive `</Event>` or `</EventRecord>`
closing tag; return the rest after it. -/
def findCloser : List Char → Option (List Char)
  | [] => none
  | c :: cs =>
    match ciPrefix "</Event>".data (c :: cs) with
    | some rest => some rest
    | none =>
      match ciPrefix "</EventRecord>".data (c :: cs) with
      | some rest => some rest
      | none => findCloser cs

/-- Attempt the block regex
`<(?:Event|EventRecord)\b.*?>.*?</(?:Event|EventRecord)>` (DOTALL,
IGNORECASE) at the start of `s`; on success return the rest after the
match. -/
def xmlBlockMatch (s : List Char) : Option (List Char) :=
  match s with
  | [] => none
  | c :: cs =>
    if c = '<' then
      match matchEventName cs with
      | some afterName =>
        match gtSplit afterName with
        | some (_, afterGt) => findCloser afterGt
        | none => none
      | none => none
    else none

theorem ciPrefix_length : ∀ {p l rest : List Char}, ciPrefix p l = some rest →
    l.length = p.length + rest.length := by
  intro p
  induction p with
  | nil => intro l rest h; rw [ciPrefix] at h; cases h; simp
  | cons x xs ih =>
    intro l rest h
    match l with
    | [] => rw [ciPrefix] at h; cases h
    | c :: cs =>
      rw [ciPrefix] at h
      split at h
      · have := ih h
        simp [this]
        omega
      · cases h

theorem findCloser_shrink : ∀ {l rest : List Char}, findCloser l = some rest →
    rest.length < l.length := by
  intro l
  induction l with
  | nil => intro rest h; rw [findCloser] at h; cases h
  | cons c cs ih =>
    intro rest h
    rw [findCloser] at h
    split at h
    · cases h
      rename_i heq
      have hlen := ciPrefix_length heq
      rw [show ("</Event>".data).length = 8 from rfl, List.length_cons] at hlen
      simp only [List.length_cons]
      omega
    · split at h
      · cases h
        rename_i heq
        have hlen := ciPrefix_length heq
        rw [show ("</EventRecord>".data).length = 14 from rfl, List.length_cons] at hlen
        simp only [List.length_cons]
        omega
      · exact Nat.lt_succ_of_lt (ih h)

theorem xmlBlockMatch_shrink {s rest : List Char} (h : xmlBlockMatch s = some rest) :
    rest.length < s.length := by
  match s with
  | [] => rw [xmlBlockMatch] at h; cases h
  | c :: cs =>
    rw [xmlBlockMatch] at h
    by_cases hc : c = '<'
    · rw [if_pos hc] at h
      match h1 : matchEventName cs with
      | none => rw [h1] at h; cases h
      | some afterName =>
        simp only [h1] at h
        match h2 : gtSplit afterName with
        | none => rw [h2] at h; cases h
        | some (mid, afterGt) =>
          simp only [h2] at h
          have e1 : afterName.length ≤ cs.length := by
            rw [matchEventName] at h1
            split at h1
            · split at h1
              · cases h1; rename_i heq _
                have hlen := ciPrefix_length heq
                omega
              · cases h1
            · split at h1
              · split at h1
                · cases h1; rename_i heq _
                  have hlen := ciPrefix_length heq
                  omega
                · cases h1
              · cases h1
          have e2 : afterGt.length < afterName.length := (gtSplit_shrink h2).1
          have e3 : rest.length < afterGt.length := findCloser_shrink h
          calc rest.length < afterGt.length := e3
            _ < afterName.length := e2
            _ ≤ cs.length := e1
            _ < cs.length + 1 := Nat.lt_succ_self _
    · rw [if_neg hc] at h
      cases h

/-- `block_re.findall(text)`: leftmost, non-overlapping matches of the
XML block regex (only the matched spans are used by the source). -/
def findXmlBlocks : List Char → List (List Char)
  | [] => []
  | c :: cs =>
    match h : xmlBlockMatch (c :: cs) with
    | some rest =>
      ((c :: cs).take ((c :: cs).length - rest.length)) :: findXmlBlocks rest
    | none => findXmlBlocks cs
termination_by l => l.length
decreasing_by
  all_goals simp_wf
  all_goals first
    | exact xmlBlockMatch_shrink h
    | exact Nat.lt_succ_self _

/-- The `wrapped` fragment of `_extract_events_from_xml` (`parser.py`
lines 58-62): wrap in a synthetic root unless the text starts with an XML
declaration. -/
def xmlWrapped (text : List Char) : List Char :=
  if ¬ ("<?xml".data.isPrefixOf (pyStrip text)) then
    "<Root>\n".data ++ text ++ "\n</Root>".data
  else text

/-- The `ET.ParseError` fallback of `_extract_events_from_xml`
(`parser.py` lines 66-74): regex-matched blocks, tags stripped, whitespace
collapsed, empty results dropped. -/
def xmlRegexFallback (text : List Char) : List (List Char) :=
  (findXmlBlocks text).filterMap fun block =>
    let cleaned := collapseStrip (stripTags block)
    if cleaned ≠ [] then some cleaned else none

/-- The successful-parse arm of `_extract_events_from_xml` (`parser.py`
lines 77-87): for each `Event`/`EventRecord` descendant, join the piece
texts with `" | "`, collapse whitespace, drop empty results. -/
def xmlTreeEvents (root : XElem) : List (List Char) :=
  (findDesc "Event".data root ++ findDesc "EventRecord".data root).filterMap fun el =>
    let joined := joinWith " | ".data (collectPieces el)
    if joined ≠ [] then some (collapseStrip joined) else none

/-- `_extract_events_from_xml(text)` (`parser.py` lines 49-87), with the
external `ET.fromstring` supplied by `lib`.  The `wrapped` fragment logic
of lines 58-62 and the `ParseError` fallback of lines 65-74 are embedded
directly. -/
def extractEventsFromXml (lib : XmlLib) (text : List Char) : List (List Char) :=
  match lib.fromstring (xmlWrapped text) with
  | none => xmlRegexFallback text
  | some root => xmlTreeEvents root

/-! ### `parse_log` -/

/-- Steps 2-5 of `parse_log` (`parser.py` lines 167-185): the non-XML part
of the cascade.  Factored out of `parse_log` because the source reaches it
both when the input is not XML-like and when XML extraction yields no
events. -/
def parseLogRest (text : List Char) : List (List Char) :=
  let lines := pySplitlines text
  let tsGrouped := splitByTimestamp lines
  if 2 ≤ tsGrouped.length then tsGrouped
  else
    let blankSplit := splitByBlankLines text
    if 2 ≤ blankSplit.length then blankSplit
    else
      let simpleLines := lines.filterMap fun ln =>
        if pyStrip ln ≠ [] then some (pyStrip ln) else none
      if simpleLines ≠ [] then simpleLines else [text]

/-- `parse_log(raw)` (`parser.py` lines 131-185) for text input.  The
`None` input returns `[]` and byte input is first decoded to text
(UTF-8, then Latin-1, then `str(raw)`), after which it flows through this
same function; the decoding itself is not modelled. -/
def parse_log (lib : XmlLib) (raw : List Char) : List (List Char) :=
  let text := pyStrip raw
  if text = [] then []
  else if isXmlLike text then
    let events := extractEventsFromXml lib text
    if events ≠ [] then events else parseLogRest text
  else parseLogRest text

/-! ### Shape of the cascade results (support for C1) -/

/-- Every event of a well-formed result: non-empty, and fixed under
`strip` (no leading or trailing whitespace). -/
def goodEvents (evs : List (List Char)) : Prop :=
  ∀ ev ∈ evs, ev ≠ [] ∧ pyStrip ev = ev

theorem pyStrip_head_not_space {l : List Char} {a : Char} {t : List Char}
    (h : pyStrip l = a :: t) : ¬ pyIsSpace a := by
  unfold pyStrip at h
  obtain ⟨u, hu, -⟩ := pyRStrip_append (pyLStrip l)
  rw [h] at hu
  exact pyLStrip_head_not_space (t := t ++ u) (by simpa using hu)

theorem mem_joinWith_head {sep : List Char} {p : List Char}
    {ps : List (List Char)} {a : Char} (ha : a ∈ p) :
    a ∈ joinWith sep (p :: ps) := by
  cases ps with
  | nil => simpa [joinWith] using ha
  | cons q qs => simp [joinWith, ha]

theorem stripped_ne_nil_head {p : List Char} (hp : pyStrip p = p) (hne : p ≠ []) :
    ∃ a t, p = a :: t ∧ ¬ pyIsSpace a := by
  match p, hne with
  | a :: t, _ =>
    refine ⟨a, t, rfl, ?_⟩
    exact pyStrip_head_not_space hp

theorem wsNlRun_split : ∀ {l : List Char} {best : Option (List Char)} {r : List Char},
    wsNlRun l best = some r →
    (∃ w, l = w ++ r ∧ ∀ x ∈ w, pyIsSpace x) ∨ best = some r := by
  intro l
  induction l with
  | nil => intro best r h; right; exact h
  | cons c cs ih =>
    intro best r h
    by_cases hnl : c = '\n'
    · rw [wsNlRun, if_pos hnl] at h
      rcases ih h with ⟨w, hw, hws⟩ | heq
      · refine Or.inl ⟨c :: w, by rw [List.cons_append, hw], ?_⟩
        intro x hx
        rcases List.mem_cons.mp hx with rfl | hx
        · simp [pyIsSpace, hnl]
        · exact hws x hx
      · cases heq
        exact Or.inl ⟨[c], rfl, by intro x hx; simp at hx; simp [pyIsSpace, hx, hnl]⟩
    · by_cases hsp : pyIsSpace c
      · rw [wsNlRun, if_neg hnl, if_pos hsp] at h
        rcases ih h with ⟨w, hw, hws⟩ | heq
        · refine Or.inl ⟨c :: w, by rw [List.cons_append, hw], ?_⟩
          intro x hx
          rcases List.mem_cons.mp hx with rfl | hx
          · exact hsp
          · exact hws x hx
        · exact Or.inr heq
      · rw [wsNlRun, if_neg hnl, if_neg hsp] at h
        exact Or.inr h

theorem mem_subWsNlAux_of_not_space {c : Char} (hs : ¬ pyIsSpace c) :
    ∀ (fuel : Nat) (l : List Char), l.length ≤ fuel → c ∈ l →
      c ∈ subWsNlAux fuel l := by
  intro fuel
  induction fuel with
  | zero =>
    intro l hl hc
    rw [Nat.le_zero, List.length_eq_zero] at hl
    subst hl; cases hc
  | succ n ih =>
    intro l hl hc
    match l with
    | [] => cases hc
    | a :: as =>
      simp only [List.length_cons] at hl
      by_cases ha : pyIsSpace a
      · rcases List.mem_cons.mp hc with rfl | h
        · exact absurd ha hs
        · rw [subWsNlAux]
          simp only [if_pos ha]
          rcases hr : wsNlRun as none with _ | rest
          · exact List.mem_cons_of_mem _
              (ih as (Nat.le_of_succ_le_succ hl) h)
          · rcases wsNlRun_split hr with ⟨w, hw, hws⟩ | heq
            · have hcr : c ∈ rest := by
                rw [hw] at h
                rcases List.mem_append.mp h with hmem | hmem
                · exact absurd (hws c hmem) hs
                · exact hmem
              refine List.mem_cons_of_mem _ (ih rest ?_ hcr)
              have := wsNlRun_shrink hr
              omega
            · cases heq
      · rw [subWsNlAux]
        simp only [if_neg ha]
        rcases List.mem_cons.mp hc with rfl | h
        · exact List.mem_cons_self _ _
        · exact List.mem_cons_of_mem _ (ih as (Nat.le_of_succ_le_succ hl) h)

theorem mem_subWsNl_of_not_space {c : Char} (hs : ¬ pyIsSpace c)
    {l : List Char} (hc : c ∈ l) : c ∈ subWsNl l :=
  mem_subWsNlAux_of_not_space hs l.length l (Nat.le_refl _) hc

theorem collectPieces_good (e : XElem) :
    ∀ p ∈ collectPieces e, p ≠ [] ∧ pyStrip p = p := by
  have H : ∀ n (e : XElem), sizeOf e ≤ n → ∀ p ∈ collectPieces e, p ≠ [] ∧ pyStrip p = p := by
    intro n
    induction n with
    | zero =>
      intro e he p hp
      exfalso
      cases e with
      | mk t tx cs =>
        rw [XElem.mk.sizeOf_spec] at he
        omega
    | succ n ih =>
      intro e he p hp
      rw [collectPieces.eq_def] at hp
      rcases htx : e.text with _ | t
      · rw [htx] at hp
        have hp2 : p ∈ e.children.attach.flatMap fun c => collectPieces c.1 := hp
        obtain ⟨c, hcmem, hpc⟩ := List.mem_flatMap.mp hp2
        refine ih c.1 ?_ p hpc
        have := sizeOf_lt_of_mem_children c.2
        omega
      · rw [htx] at hp
        have hp2 : p ∈ (if t ≠ [] ∧ pyStrip t ≠ [] then [pyStrip t] else []) ++
            e.children.attach.flatMap fun c => collectPieces c.1 := hp
        rcases List.mem_append.mp hp2 with hhead | htail
        · split at hhead
          · rename_i hg
            simp only [List.mem_singleton] at hhead
            subst hhead
            exact ⟨hg.2, pyStrip_idem t⟩
          · cases hhead
        · obtain ⟨c, hcmem, hpc⟩ := List.mem_flatMap.mp htail
          refine ih c.1 ?_ p hpc
          have := sizeOf_lt_of_mem_children c.2
          omega
  exact H (sizeOf e) e (Nat.le_refl _)

theorem xmlRegexFallback_good (text : List Char) :
    goodEvents (xmlRegexFallback text) := by
  intro ev hev
  obtain ⟨block, hb, hsome⟩ := List.mem_filterMap.mp hev
  try dsimp only at hsome
  split at hsome
  · rename_i hne
    cases hsome
    exact ⟨hne, collapseStrip_stripped _⟩
  · cases hsome

theorem xmlTreeEvents_good (root : XElem) :
    goodEvents (xmlTreeEvents root) := by
  intro ev hev
  obtain ⟨el, hel, hsome⟩ := List.mem_filterMap.mp hev
  try dsimp only at hsome
  split at hsome
  · rename_i hjoined
    cases hsome
    refine ⟨?_, collapseStrip_stripped _⟩
    rcases hps : collectPieces el with _ | ⟨p, ps⟩
    · rw [hps] at hjoined
      exact absurd rfl hjoined
    · have hpgood := collectPieces_good el p (hps ▸ List.mem_cons_self p ps)
      obtain ⟨a, t, hpat, hna⟩ := stripped_ne_nil_head hpgood.2 hpgood.1
      have ha : a ∈ joinWith " | ".data (p :: ps) :=
        mem_joinWith_head (hpat ▸ List.mem_cons_self a t)
      exact collapseStrip_ne_nil_of_mem ha hna
  · cases hsome

theorem extractEventsFromXml_good (lib : XmlLib) (text : List Char) :
    goodEvents (extractEventsFromXml lib text) := by
  intro ev hev
  unfold extractEventsFromXml at hev
  rcases hfs : lib.fromstring (xmlWrapped text) with _ | root <;> rw [hfs] at hev
  · exact xmlRegexFallback_good text ev hev
  · exact xmlTreeEvents_good root ev hev

theorem splitByTimestamp_good (lines : List (List Char)) :
    goodEvents (splitByTimestamp lines) := by
  intro ev hev
  obtain ⟨e0, he0, hsome⟩ := List.mem_filterMap.mp hev
  try dsimp only at hsome
  split at hsome
  · rename_i hg
    cases hsome
    refine ⟨?_, pyStrip_idem _⟩
    obtain ⟨c, hc, hcs⟩ := exists_not_space_of_pyStrip_ne_nil hg.2
    exact pyStrip_ne_nil_of_mem (mem_subWsNl_of_not_space hcs hc) hcs
  · cases hsome

theorem splitByBlankLines_good (text : List Char) :
    goodEvents (splitByBlankLines text) := by
  intro ev hev
  obtain ⟨b, hbm, hsome⟩ := List.mem_filterMap.mp hev
  try dsimp only at hsome
  split at hsome
  · rename_i hg
    cases hsome
    exact ⟨hg.2, pyStrip_idem _⟩
  · cases hsome

theorem parseLogRest_spec (text : List Char) (hfix : pyStrip text = text)
    (hne : text ≠ []) :
    parseLogRest text ≠ [] ∧ goodEvents (parseLogRest text) := by
  simp only [parseLogRest]
  by_cases h1 : 2 ≤ (splitByTimestamp (pySplitlines text)).length
  · simp only [if_pos h1]
    refine ⟨?_, splitByTimestamp_good _⟩
    intro hnil
    rw [hnil] at h1
    simp at h1
  · simp only [if_neg h1]
    by_cases h2 : 2 ≤ (splitByBlankLines text).length
    · simp only [if_pos h2]
      refine ⟨?_, splitByBlankLines_good _⟩
      intro hnil
      rw [hnil] at h2
      simp at h2
    · simp only [if_neg h2]
      by_cases h3 : (pySplitlines text).filterMap
          (fun ln => if pyStrip ln ≠ [] then some (pyStrip ln) else none) ≠ []
      · simp only [if_pos h3]
        refine ⟨h3, ?_⟩
        intro ev hev
        obtain ⟨ln, hlm, hsome⟩ := List.mem_filterMap.mp hev
        try dsimp only at hsome
        split at hsome
        · rename_i hg
          cases hsome
          exact ⟨hg, pyStrip_idem _⟩
        · cases hsome
      · simp only [if_neg h3]
        refine ⟨by simp, ?_⟩
        intro ev hev
        simp only [List.mem_singleton] at hev
        subst hev
        exact ⟨hne, hfix⟩

/-- C1: for input whose `strip` is empty, `parse_log` returns `[]`; for
input whose `strip` is non-empty, it returns a non-empty list in which
every event is a non-empty string with no leading or trailing whitespace.
(Byte input is first decoded — with a fallback chain that always
succeeds — and then flows through the same text path.) -/
theorem parse_log_segments_nonempty_trimmed (lib : XmlLib) (raw : List Char) :
    (pyStrip raw = [] → parse_log lib raw = []) ∧
    (pyStrip raw ≠ [] →
      parse_log lib raw ≠ [] ∧
      ∀ ev ∈ parse_log lib raw, ev ≠ [] ∧ pyStrip ev = ev) := by
  constructor
  · intro h
    unfold parse_log
    rw [if_pos h]
  · intro h
    have hfix : pyStrip (pyStrip raw) = pyStrip raw := pyStrip_idem raw
    unfold parse_log
    rw [if_neg h]
    split
    · by_cases hxne : extractEventsFromXml lib (pyStrip raw) ≠ []
      · simp only [if_pos hxne]
        exact ⟨hxne, fun ev hev => extractEventsFromXml_good lib _ ev hev⟩
      · simp only [if_neg hxne]
        exact parseLogRest_spec _ hfix h
    · exact parseLogRest_spec _ hfix h

/-- A trivial instantiation of the external XML parser, used by the
witnesses: it reports a parse failure on every input. -/
def trivialXmlLib : XmlLib := ⟨fun _ => none⟩

/-- Witness for C1 at concrete inputs: whitespace-only input gives `[]`;
`"hi there"` gives a non-empty list of non-empty trimmed events. -/
theorem parse_log_segments_nonempty_trimmed_witness :
    parse_log trivialXmlLib "  ".data = [] ∧
    (parse_log trivialXmlLib "hi there".data ≠ [] ∧
      ∀ ev ∈ parse_log trivialXmlLib "hi there".data, ev ≠ [] ∧ pyStrip ev = ev) :=
  ⟨(parse_log_segments_nonempty_trimmed trivialXmlLib "  ".data).1 (by decide),
   (parse_log_segments_nonempty_trimmed trivialXmlLib "hi there".data).2 (by decide)⟩

/-- The concrete input of C3. -/
def c3Input : List Char :=
  "2024-01-25 10:33:22 A\nDetail line\n\n2024-01-25 10:34:10 B".data

/-- C3: the sample input segments into exactly 2 events, and the first
event contains both `"A"` and `"Detail line"` (for any behaviour of the
external XML parser, which this non-XML input never reaches). -/
theorem parse_log_c3_two_events (lib : XmlLib) :
    (parse_log lib c3Input).length = 2 ∧
    pyContains ((parse_log lib c3Input).headD []) "A".data = true ∧
    pyContains ((parse_log lib c3Input).headD []) "Detail line".data = true := by
  have hres : parse_log lib c3Input =
      ["2024-01-25 10:33:22 A\nDetail line".data,
       "2024-01-25 10:34:10 B".data] := by
    unfold parse_log
    rw [if_neg (by decide), if_neg (by decide)]
    decide
  rw [hres]
  decide

/-- C8: `parse_log` is deterministic — two calls on identical input (and
the same external XML parser) return identical event sequences.  In this
pure embedding the property is definitional. -/
theorem parse_log_deterministic (lib : XmlLib) (raw raw' : List Char)
    (h : raw = raw') : parse_log lib raw = parse_log lib raw' := by
  rw [h]

/-- Witness for C8 at a concrete input. -/
theorem parse_log_deterministic_witness :
    parse_log trivialXmlLib "a b".data = parse_log trivialXmlLib "a b".data :=
  parse_log_deterministic trivialXmlLib "a b".data "a b".data rfl

/-! ## `summarize_event` (`parser.py` lines 189-202) -/

/-- The character class `[\.\!\?]` of the sentence-cut regex. -/
def sentenceMark (c : Char) : Bool := c = '.' || c = '!' || c = '?'

/-- Does the lazy group regex `(.{50,maxLen}?)[\.\!\?]\s` match at start
position `p` with group length `k`?  (`.` matches any character except a
newline; group characters are `s[p..p+k)`, then a sentence mark, then a
whitespace character.)  The `50 ≤ k ≤ maxLen` bound is imposed by the
ranges the callers scan. -/
def checkAt (s : List Char) (p k : Nat) : Bool :=
  ((s.drop p).take k).all (fun c => ¬ c = '\n') &&
  (match s.drop (p + k) with
   | c :: d :: _ => sentenceMark c && pyIsSpace d
   | _ => false)

/-- For a fixed start `p`: the smallest group length `k ∈ [50, maxLen]`
that matches — the lazy `{50,maxLen}?` tries short groups first. -/
def findK (s : List Char) (maxLen p : Nat) : Option Nat :=
  (List.range' 50 (maxLen - 49)).find? (fun k => checkAt s p k)

/-- `re.search(r"(.{50,maxLen}?)[\.\!\?]\s", s)`: the leftmost start
position wins, then the shortest group.  Returns the `(start, length)` of
the group. -/
def searchSentence (s : List Char) (maxLen : Nat) : Option (Nat × Nat) :=
  (List.range s.length).findSome? fun p => (findK s maxLen p).map fun k => (p, k)

/-- Python `t.rsplit(" ", 1)[0]`: everything before the last space, or all
of `t` when it has no space. -/
def cutAtLastSpace (t : List Char) : List Char :=
  if t.contains ' ' then ((t.reverse.dropWhile fun c => ¬ c = ' ').tail).reverse
  else t

/-- `summarize_event(event_text, max_len)` (`parser.py` lines 189-202).
`none` models the `re.error` raised when compiling `.{50,maxLen}` with
`maxLen < 50` (reached only when the collapsed text exceeds the budget;
Python rejects a min repeat greater than the max repeat). -/
def summarize_event (eventText : List Char) (maxLen : Nat) : Option (List Char) :=
  let s := collapseStrip eventText
  if s.length ≤ maxLen then some s
  else if maxLen < 50 then none
  else
    match searchSentence s maxLen with
    | some (p, k) => some (pyStrip ((s.drop p).take k) ++ "...".data)
    | none => some (cutAtLastSpace (s.take maxLen) ++ "...".data)

/-- The concrete input of the C9 counterexample: 70 characters, single
spaces only, whose only sentence mark (the `.` at index 64, followed by a
space) lies beyond the budget of 60. -/
def c9Input : List Char :=
  "abcd efgh ijkl mnop qrst uvwx yzab cdef ghij klmn opqr stuv wxyz. tail".data

/-- C9 counterexample: on `c9Input` with budget 60, `summarize_event`
returns a slice that starts in the middle of the text — it is neither the
collapsed text itself nor any prefix of it cut and suffixed with the
ellipsis, although the claim describes the result as the text cut at a
sentence mark within the budget or at the last word boundary before the
limit (both of which are prefixes). -/
theorem summarize_event_counterexample :
    summarize_event c9Input 60 =
      some ("efgh ijkl mnop qrst uvwx yzab cdef ghij klmn opqr stuv wxyz...".data) ∧
    (∀ n, n ≤ 70 →
      ¬ ("efgh ijkl mnop qrst uvwx yzab cdef ghij klmn opqr stuv wxyz...".data
        = (collapseStrip c9Input).take n ++ "...".data)) ∧
    ¬ ("efgh ijkl mnop qrst uvwx yzab cdef ghij klmn opqr stuv wxyz...".data
        = collapseStrip c9Input) := by
  refine ⟨?_, ?_, ?_⟩ <;> decide

/-! ### Declarative characterization of the sentence-cut search -/

/-- The window `(p, k)` is a valid match of the sentence-cut regex on `s`
under budget `maxLen`, stated declaratively: group length in
`[50, maxLen]`, no newline among the group characters, and a sentence mark
followed by a whitespace character right after the group. -/
def validWin (s : List Char) (maxLen p k : Nat) : Prop :=
  50 ≤ k ∧ k ≤ maxLen ∧ p + k + 1 < s.length ∧
  (∀ c ∈ (s.drop p).take k, ¬ c = '\n') ∧
  sentenceMark (s.getD (p + k) ' ') = true ∧ pyIsSpace (s.getD (p + k + 1) ' ') = true

theorem checkAt_iff (s : List Char) (p k : Nat) :
    checkAt s p k = true ↔
      (p + k + 1 < s.length ∧ (∀ c ∈ (s.drop p).take k, ¬ c = '\n') ∧
       sentenceMark (s.getD (p + k) ' ') = true ∧
       pyIsSpace (s.getD (p + k + 1) ' ') = true) := by
  unfold checkAt
  rw [Bool.and_eq_true, List.all_eq_true]
  constructor
  · rintro ⟨hall, hmatch⟩
    rcases hd : s.drop (p + k) with _ | ⟨c, tl⟩ <;> rw [hd] at hmatch
    · cases hmatch
    · rcases htl : tl with _ | ⟨d, tl2⟩ <;> rw [htl] at hmatch
      · cases hmatch
      · rw [Bool.and_eq_true] at hmatch
        have hlen : (s.drop (p + k)).length = s.length - (p + k) := List.length_drop _ _
        rw [hd, htl] at hlen
        simp only [List.length_cons] at hlen
        have hlt : p + k + 1 < s.length := by omega
        have hc : s[p + k]? = some c := by
          have : (s.drop (p + k))[0]? = some c := by rw [hd]; simp
          rwa [List.getElem?_drop, Nat.add_zero] at this
        have hdd : s[p + k + 1]? = some d := by
          have : (s.drop (p + k))[1]? = some d := by rw [hd, htl]; simp
          rwa [List.getElem?_drop] at this
        refine ⟨hlt, fun c hc => by simpa using hall c hc, ?_, ?_⟩
        · rw [List.getD_eq_getElem?_getD, hc]
          exact hmatch.1
        · rw [List.getD_eq_getElem?_getD, hdd]
          exact hmatch.2
  · rintro ⟨hlt, hall, hm, hw⟩
    refine ⟨fun c hc => by simpa using hall c hc, ?_⟩
    have h2 : 2 ≤ (s.drop (p + k)).length := by
      rw [List.length_drop]
      omega
    rcases hd : s.drop (p + k) with _ | ⟨c, tl⟩ <;> rw [hd] at h2
    · simp at h2
    · rcases htl : tl with _ | ⟨d, tl2⟩ <;> rw [htl] at h2
      · simp at h2
      · have hc : s[p + k]? = some c := by
          have : (s.drop (p + k))[0]? = some c := by rw [hd]; simp
          rwa [List.getElem?_drop, Nat.add_zero] at this
        have hdd : s[p + k + 1]? = some d := by
          have : (s.drop (p + k))[1]? = some d := by rw [hd, htl]; simp
          rwa [List.getElem?_drop] at this
        rw [List.getD_eq_getElem?_getD, hc] at hm
        rw [List.getD_eq_getElem?_getD, hdd] at hw
        show (sentenceMark c && pyIsSpace d) = true
        simp only [Bool.and_eq_true]
        exact ⟨by simpa using hm, by simpa using hw⟩

theorem validWin_iff (s : List Char) (maxLen p k : Nat) (hml : 50 ≤ maxLen) :
    validWin s maxLen p k ↔ (k ∈ List.range' 50 (maxLen - 49) ∧ checkAt s p k = true) := by
  rw [List.mem_range'_1, checkAt_iff]
  unfold validWin
  constructor
  · rintro ⟨h1, h2, h3, h4, h5, h6⟩
    exact ⟨⟨h1, by omega⟩, h3, h4, h5, h6⟩
  · rintro ⟨⟨h1, h2⟩, h3, h4, h5, h6⟩
    exact ⟨h1, by omega, h3, h4, h5, h6⟩

theorem find?_range'_spec (f : Nat → Bool) :
    ∀ (n a k : Nat), (List.range' a n).find? f = some k ↔
      (a ≤ k ∧ k < a + n ∧ f k = true ∧ ∀ j, a ≤ j → j < k → ¬ f j = true) := by
  intro n
  induction n with
  | zero =>
    intro a k
    simp only [List.range'_zero, List.find?_nil]
    constructor
    · intro h; cases h
    · rintro ⟨h1, h2, -⟩; omega
  | succ n ih =>
    intro a k
    rw [List.range'_succ a n 1, List.find?_cons]
    by_cases hfa : f a = true
    · rw [hfa]
      constructor
      · intro h
        cases h
        exact ⟨Nat.le_refl _, by omega, hfa, fun j h1 h2 => by omega⟩
      · rintro ⟨h1, h2, h3, h4⟩
        by_cases hak : a = k
        · rw [hak]
        · exact absurd hfa (h4 a (Nat.le_refl _) (by omega))
    · rw [Bool.not_eq_true] at hfa
      rw [hfa, ih (a + 1) k]
      constructor
      · rintro ⟨h1, h2, h3, h4⟩
        refine ⟨by omega, by omega, h3, fun j hj1 hj2 => ?_⟩
        by_cases hja : j = a
        · rw [hja, hfa]; simp
        · exact h4 j (by omega) hj2
      · rintro ⟨h1, h2, h3, h4⟩
        have hka : a ≠ k := by
          intro he
          rw [he] at hfa
          rw [hfa] at h3
          cases h3
        exact ⟨by omega, by omega, h3, fun j hj1 hj2 => h4 j (by omega) hj2⟩

theorem findSome?_range'_spec {β : Type} (g : Nat → Option β) :
    ∀ (n a : Nat) (b : β), (List.range' a n).findSome? g = some b ↔
      ∃ p, a ≤ p ∧ p < a + n ∧ g p = some b ∧ ∀ j, a ≤ j → j < p → g j = none := by
  intro n
  induction n with
  | zero =>
    intro a b
    simp only [List.range'_zero, List.findSome?_nil]
    constructor
    · intro h; cases h
    · rintro ⟨p, h1, h2, -⟩; omega
  | succ n ih =>
    intro a b
    rw [List.range'_succ a n 1, List.findSome?_cons]
    rcases hga : g a with _ | c
    · rw [ih (a + 1) b]
      constructor
      · rintro ⟨p, h1, h2, h3, h4⟩
        refine ⟨p, by omega, by omega, h3, fun j hj1 hj2 => ?_⟩
        by_cases hja : j = a
        · rw [hja, hga]
        · exact h4 j (by omega) hj2
      · rintro ⟨p, h1, h2, h3, h4⟩
        have hpa : p ≠ a := by
          intro he
          rw [he, hga] at h3
          cases h3
        exact ⟨p, by omega, by omega, h3, fun j hj1 hj2 => h4 j (by omega) hj2⟩
    · constructor
      · intro h
        cases h
        exact ⟨a, Nat.le_refl _, by omega, hga, fun j h1 h2 => by omega⟩
      · rintro ⟨p, h1, h2, h3, h4⟩
        by_cases hpa : p = a
        · rw [hpa] at h3
          rw [hga] at h3
          exact h3 ▸ rfl
        · rw [h4 a (Nat.le_refl _) (by omega)] at hga
          cases hga

theorem searchSentence_some_iff (s : List Char) (maxLen : Nat) (hml : 50 ≤ maxLen)
    (p k : Nat) :
    searchSentence s maxLen = some (p, k) ↔
      (validWin s maxLen p k ∧
       ∀ p' k', validWin s maxLen p' k' → p < p' ∨ (p = p' ∧ k ≤ k')) := by
  unfold searchSentence
  rw [List.range_eq_range' s.length, findSome?_range'_spec]
  constructor
  · rintro ⟨p0, -, hp0lt, hg, hnone⟩
    rcases hfk : findK s maxLen p0 with _ | k0 <;> rw [hfk] at hg
    · cases hg
    · rw [Option.map_some'] at hg
      cases hg
      unfold findK at hfk
      rw [find?_range'_spec] at hfk
      obtain ⟨hk1, hk2, hk3, hk4⟩ := hfk
      have hvw : validWin s maxLen p k := by
        rw [validWin_iff s maxLen p k hml, List.mem_range'_1]
        exact ⟨⟨hk1, hk2⟩, hk3⟩
      refine ⟨hvw, fun p' k' hv' => ?_⟩
      rcases Nat.lt_trichotomy p p' with hlt | heq | hgt
      · exact Or.inl hlt
      · refine Or.inr ⟨heq, ?_⟩
        rw [validWin_iff s maxLen p' k' hml, List.mem_range'_1] at hv'
        by_contra hkk
        exact (hk4 k' (hv'.1.1) (by omega)) (heq ▸ hv'.2)
      · exfalso
        have h0 := hnone p' (Nat.zero_le _) hgt
        rcases hfk' : findK s maxLen p' with _ | k0' <;> rw [hfk'] at h0
        · unfold findK at hfk'
          rw [List.find?_eq_none] at hfk'
          rw [validWin_iff s maxLen p' k' hml] at hv'
          exact (hfk' k' hv'.1) hv'.2
        · cases h0
  · rintro ⟨hvw, hmin⟩
    have hvw' := hvw
    rw [validWin_iff s maxLen p k hml] at hvw'
    have hfkp : findK s maxLen p = some k := by
      unfold findK
      rw [find?_range'_spec]
      rw [List.mem_range'_1] at hvw'
      refine ⟨hvw'.1.1, hvw'.1.2, hvw'.2, fun j hj1 hj2 => ?_⟩
      intro hcj
      have hvj : validWin s maxLen p j := by
        rw [validWin_iff s maxLen p j hml, List.mem_range'_1]
        refine ⟨⟨hj1, ?_⟩, hcj⟩
        have hk2 := hvw'.1.2
        omega
      rcases hmin p j hvj with h | ⟨-, h⟩
      · omega
      · omega
    refine ⟨p, Nat.zero_le _, ?_, by rw [hfkp]; rfl, fun j hj1 hj2 => ?_⟩
    · have := hvw.2.2.1
      omega
    · rcases hfj : findK s maxLen j with _ | kj
      · rfl
      · exfalso
        unfold findK at hfj
        rw [find?_range'_spec] at hfj
        obtain ⟨hkj1, hkj2, hkj3, -⟩ := hfj
        have hvj : validWin s maxLen j kj := by
          rw [validWin_iff s maxLen j kj hml, List.mem_range'_1]
          exact ⟨⟨hkj1, hkj2⟩, hkj3⟩
        rcases hmin j kj hvj with h | ⟨h, -⟩ <;> omega

theorem searchSentence_none_iff (s : List Char) (maxLen : Nat) (hml : 50 ≤ maxLen) :
    searchSentence s maxLen = none ↔ ∀ p k, ¬ validWin s maxLen p k := by
  unfold searchSentence
  rw [List.findSome?_eq_none_iff]
  constructor
  · intro h p k hv
    have hp : p ∈ List.range s.length := by
      rw [List.mem_range]
      have := hv.2.2.1
      omega
    have h0 := h p hp
    rcases hfk : findK s maxLen p with _ | k0 <;> rw [hfk] at h0
    · unfold findK at hfk
      rw [List.find?_eq_none] at hfk
      rw [validWin_iff s maxLen p k hml] at hv
      exact (hfk k hv.1) hv.2
    · cases h0
  · intro h p hp
    rcases hfk : findK s maxLen p with _ | k0
    · rfl
    · exfalso
      unfold findK at hfk
      rw [find?_range'_spec] at hfk
      obtain ⟨h1, h2, h3, -⟩ := hfk
      refine h p k0 ?_
      rw [validWin_iff s maxLen p k0 hml, List.mem_range'_1]
      exact ⟨⟨h1, h2⟩, h3⟩

/-- C9 (amended): `summarize_event` first collapses whitespace.  If the
collapsed text fits the budget it is returned as-is.  Otherwise, when some
window of 50 to `maxLen` non-newline characters ending just before a
sentence mark followed by whitespace exists — the window may start
mid-string, so the result need not be a prefix — the leftmost-then-
shortest such window is returned, trimmed, with the ellipsis appended;
when no such window exists, the first `maxLen` characters are cut at the
last space and the ellipsis is appended.  For `maxLen < 50` with
over-budget text the sentence-cut regex fails to compile (`re.error`). -/
theorem summarize_event_amended :
    (∀ (ev : List Char) (maxLen : Nat), 50 ≤ maxLen →
      ((collapseStrip ev).length ≤ maxLen →
        summarize_event ev maxLen = some (collapseStrip ev)) ∧
      (maxLen < (collapseStrip ev).length →
        ((∃ p k, validWin (collapseStrip ev) maxLen p k) →
          ∃ p k, validWin (collapseStrip ev) maxLen p k ∧
            (∀ p' k', validWin (collapseStrip ev) maxLen p' k' →
              p < p' ∨ (p = p' ∧ k ≤ k')) ∧
            summarize_event ev maxLen =
              some (pyStrip (((collapseStrip ev).drop p).take k) ++ "...".data)) ∧
        ((∀ p k, ¬ validWin (collapseStrip ev) maxLen p k) →
          summarize_event ev maxLen =
            some (cutAtLastSpace ((collapseStrip ev).take maxLen) ++ "...".data)))) ∧
    (∀ (ev : List Char) (maxLen : Nat), maxLen < 50 →
      maxLen < (collapseStrip ev).length → summarize_event ev maxLen = none) := by
  constructor
  · intro ev maxLen hml
    constructor
    · intro hle
      simp only [summarize_event]
      rw [if_pos hle]
    · intro hover
      simp only [summarize_event]
      rw [if_neg (by omega), if_neg (by omega)]
      constructor
      · intro hex
        rcases hs : searchSentence (collapseStrip ev) maxLen with _ | ⟨p, k⟩
        · exfalso
          obtain ⟨p, k, hv⟩ := hex
          exact (searchSentence_none_iff _ _ hml).mp hs p k hv
        · obtain ⟨hv, hmin⟩ := (searchSentence_some_iff _ _ hml p k).mp hs
          exact ⟨p, k, hv, hmin, rfl⟩
      · intro hnone
        rcases hs : searchSentence (collapseStrip ev) maxLen with _ | ⟨p, k⟩
        · rfl
        · exfalso
          obtain ⟨hv, -⟩ := (searchSentence_some_iff _ _ hml p k).mp hs
          exact hnone p k hv
  · intro ev maxLen h50 hover
    simp only [summarize_event]
    rw [if_neg (by omega), if_pos h50]

/-- Witness for the amended C9 at concrete inputs: a short text is
returned as-is; an over-budget text with `maxLen = 10 < 50` hits the
regex-compilation failure. -/
theorem summarize_event_amended_witness :
    summarize_event "hi there".data 60 = some (collapseStrip "hi there".data) ∧
    summarize_event c9Input 10 = none :=
  ⟨(summarize_event_amended.1 "hi there".data 60 (by decide)).1 (by decide),
   summarize_event_amended.2 c9Input 10 (by decide) (by decide)⟩

/-! ## `src/api/ai_explainer.py` — response parsing and the retry loop -/

/-- A Python value as seen by `parse_gemini_response`: `None`, `str`,
`bytes`/`bytearray`, `dict` (an association list of string keys in
insertion order) or `list`/`tuple`. -/
inductive PyVal where
  | vNone
  | vStr (s : List Char)
  | vBytes (b : List Nat)
  | vDict (entries : List (List Char × PyVal))
  | vList (items : List PyVal)

/-- Python truthiness of a `PyVal`. -/
def pyTruthy : PyVal → Bool
  | .vNone => false
  | .vStr s => ¬ s.isEmpty
  | .vBytes b => ¬ b.isEmpty
  | .vDict d => ¬ d.isEmpty
  | .vList l => ¬ l.isEmpty

/-- Python `a or b` on values (returns `a` when truthy, else `b`). -/
def pyOr (a b : PyVal) : PyVal := if pyTruthy a then a else b

/-- Python `d.get(k)`: the value for `k`, or `None` when absent. -/
def dictGet (d : List (List Char × PyVal)) (k : List Char) : PyVal :=
  match d.find? fun kv => decide (kv.1 = k) with
  | some kv => kv.2
  | none => .vNone

/-- Python `k in d`. -/
def dictHas (d : List (List Char × PyVal)) (k : List Char) : Bool :=
  (d.find? fun kv => decide (kv.1 = k)).isSome

/-- U+FFFD REPLACEMENT CHARACTER. -/
def replChar : Char := Char.ofNat 0xFFFD

/-- Fueled worker for `decodeUtf8Replace`; every step consumes at least
one byte, so fuel equal to the byte count suffices. -/
def decodeUtf8Aux : Nat → List Nat → List Char
  | _, [] => []
  | 0, _ => []
  | fuel + 1, b :: bs =>
    if h1 : b < 0x80 then Char.ofNat b :: decodeUtf8Aux fuel bs
    else if 0xC2 ≤ b ∧ b ≤ 0xDF then
      match bs with
      | b2 :: bs2 =>
        if 0x80 ≤ b2 ∧ b2 ≤ 0xBF then
          Char.ofNat ((b - 0xC0) * 64 + (b2 - 0x80)) :: decodeUtf8Aux fuel bs2
        else replChar :: decodeUtf8Aux fuel bs
      | [] => [replChar]
    else if 0xE0 ≤ b ∧ b ≤ 0xEF then
      match bs with
      | b2 :: b3 :: bs3 =>
        if (0x80 ≤ b2 ∧ b2 ≤ 0xBF) ∧ (0x80 ≤ b3 ∧ b3 ≤ 0xBF) then
          Char.ofNat ((b - 0xE0) * 4096 + (b2 - 0x80) * 64 + (b3 - 0x80)) ::
            decodeUtf8Aux fuel bs3
        else replChar :: decodeUtf8Aux fuel bs
      | _ => replChar :: decodeUtf8Aux fuel bs
    else if 0xF0 ≤ b ∧ b ≤ 0xF4 then
      match bs with
      | b2 :: b3 :: b4 :: bs4 =>
        if (0x80 ≤ b2 ∧ b2 ≤ 0xBF) ∧ (0x80 ≤ b3 ∧ b3 ≤ 0xBF) ∧ (0x80 ≤ b4 ∧ b4 ≤ 0xBF) then
          Char.ofNat ((b - 0xF0) * 262144 + (b2 - 0x80) * 4096 + (b3 - 0x80) * 64 +
              (b4 - 0x80)) :: decodeUtf8Aux fuel bs4
        else replChar :: decodeUtf8Aux fuel bs
      | _ => replChar :: decodeUtf8Aux fuel bs
    else replChar :: decodeUtf8Aux fuel bs

/-- A model of `resp.decode("utf-8", errors="replace")`: always total,
decoding valid sequences and substituting the replacement character for
invalid bytes (the exact number of replacement characters per malformed
sequence is irrelevant to every claim). -/
def decodeUtf8Replace (b : List Nat) : List Char := decodeUtf8Aux b.length b

/-- Opening brace character (text, not Lean syntax). -/
def lbrace : Char := Char.ofNat 123

/-- Closing brace character. -/
def rbrace : Char := Char.ofNat 125

/-- Single-quote character. -/
def sq : Char := Char.ofNat 39

theorem sizeOf_snd_lt_vDict {d : List (List Char × PyVal)} {kv : List Char × PyVal}
    (h : kv ∈ d) : sizeOf kv.2 < sizeOf (PyVal.vDict d) := by
  have h1 := List.sizeOf_lt_of_mem h
  cases kv with
  | mk k v =>
    simp only [PyVal.vDict.sizeOf_spec]
    simp only [Prod.mk.sizeOf_spec] at h1
    omega

theorem sizeOf_item_lt_vList {l : List PyVal} {x : PyVal} (h : x ∈ l) :
    sizeOf x < sizeOf (PyVal.vList l) := by
  have h1 := List.sizeOf_lt_of_mem h
  simp only [PyVal.vList.sizeOf_spec]
  omega

/-- Python `repr`, as far as the fallback stringification needs it (string
escaping inside quotes is not modelled; no claim depends on it). -/
def pyRepr : PyVal → List Char
  | .vNone => "None".data
  | .vStr s => sq :: s ++ [sq]
  | .vBytes b => 'b' :: sq :: (b.map fun n => Char.ofNat n) ++ [sq]
  | .vDict d =>
    lbrace :: (joinWith ", ".data (d.attach.map fun kv =>
      (sq :: kv.1.1 ++ [sq]) ++ ": ".data ++ pyRepr kv.1.2)) ++ [rbrace]
  | .vList l =>
    '[' :: (joinWith ", ".data (l.attach.map fun x => pyRepr x.1)) ++ [']']
termination_by v => sizeOf v
decreasing_by
  all_goals simp_wf
  · have := sizeOf_snd_lt_vDict kv.2
    simp only [PyVal.vDict.sizeOf_spec] at this
    omega
  · have := sizeOf_item_lt_vList x.2
    simp only [PyVal.vList.sizeOf_spec] at this
    omega

/-- Python `str(v)` (`str` of a string is itself; every other value
stringifies through `repr`-style rendering). -/
def pyStr : PyVal → List Char
  | .vStr s => s
  | v => pyRepr v

/-- The `parts` probe inside the `candidates` branch
(`ai_explainer.py` lines 104-110). -/
def partsProbe (content : List (List Char × PyVal)) : Option (List Char) :=
  match pyOr (dictGet content "parts".data)
      (pyOr (dictGet content "textParts".data) .vNone) with
  | .vList (p0 :: _) =>
    match p0 with
    | .vDict pd =>
      if dictHas pd "text".data then some (pyStrip (pyStr (dictGet pd "text".data)))
      else none
    | .vStr s => some (pyStrip s)
    | _ => none
  | _ => none

/-- One key of the flattened-key loop over the first candidate
(`ai_explainer.py` lines 112-114): returns only when the key is present
with a string value. -/
def flatKeyStr (d : List (List Char × PyVal)) (k : List Char) : Option (List Char) :=
  if dictHas d k then
    match dictGet d k with
    | .vStr s => some (pyStrip s)
    | _ => none
  else none

/-- The `candidates` branch (`ai_explainer.py` lines 99-114). -/
def candidatesPath (resp : List (List Char × PyVal)) : Option (List Char) :=
  if dictHas resp "candidates".data then
    match dictGet resp "candidates".data with
    | .vList (first :: _) =>
      match first with
      | .vDict fd =>
        (match pyOr (dictGet fd "content".data)
            (pyOr (dictGet fd "output".data) (.vDict fd)) with
         | .vDict cd => partsProbe cd
         | _ => none) <|>
        (flatKeyStr fd "text".data <|> flatKeyStr fd "content".data <|>
          flatKeyStr fd "output".data)
      | _ => none
    | _ => none
  else none

/-- One key of the simple-key loop (`ai_explainer.py` lines 116-125):
a string value returns directly; a dict value is probed one level deeper
for `text`/`content`/`reply`. -/
def simpleKey (resp : List (List Char × PyVal)) (k : List Char) : Option (List Char) :=
  match dictGet resp k with
  | .vStr s => some (pyStrip s)
  | .vDict vd =>
    (match dictGet vd "text".data with
     | .vStr s => some (pyStrip s) | _ => none) <|>
    (match dictGet vd "content".data with
     | .vStr s => some (pyStrip s) | _ => none) <|>
    (match dictGet vd "reply".data with
     | .vStr s => some (pyStrip s) | _ => none)
  | _ => none

/-- The simple-key loop over `reply|text|output|content|message`. -/
def simpleKeys (resp : List (List Char × PyVal)) : Option (List Char) :=
  simpleKey resp "reply".data <|> simpleKey resp "text".data <|>
  simpleKey resp "output".data <|> simpleKey resp "content".data <|>
  simpleKey resp "message".data

/-- The chat-style `choices` branch (`ai_explainer.py` lines 127-134). -/
def choicesPath (resp : List (List Char × PyVal)) : Option (List Char) :=
  if dictHas resp "choices".data then
    match dictGet resp "choices".data with
    | .vList (c0 :: _) =>
      match c0 with
      | .vDict cd =>
        match pyOr (dictGet cd "message".data)
            (pyOr (dictGet cd "delta".data) (.vDict cd)) with
        | .vDict md =>
          match pyOr (dictGet md "content".data) (dictGet md "text".data) with
          | .vStr s => some (pyStrip s)
          | _ => none
        | _ => none
      | _ => none
    | _ => none
  else none

/-- The whole dict-probing block of `parse_gemini_response`
(`ai_explainer.py` lines 91-136).  The surrounding `try/except` only
guards exceptions that the probing cannot raise on `PyVal` values, so it
is the identity here. -/
def tryParseDict (resp : List (List Char × PyVal)) : Option (List Char) :=
  candidatesPath resp <|> simpleKeys resp <|> choicesPath resp

/-- The two `ValueError`s `parse_gemini_response` can raise. -/
inductive PyValueError where
  | emptyResponse
  | noTextExtracted

/-- `parse_gemini_response(resp)` (`ai_explainer.py` lines 65-146). -/
def parse_gemini_response : PyVal → Except PyValueError (List Char)
  | .vNone => .error .emptyResponse
  | .vStr s => .ok (pyStrip s)
  | .vBytes b => .ok (pyStrip (decodeUtf8Replace b))
  | .vDict d =>
    match tryParseDict d with
    | some s => .ok s
    | none =>
      let txt := pyStr (.vDict d)
      if txt ≠ [] then .ok (pyStrip txt) else .error .noTextExtracted
  | .vList l =>
    let txt := pyStr (.vList l)
    if txt ≠ [] then .ok (pyStrip txt) else .error .noTextExtracted

theorem pyStr_vDict_ne_nil (d : List (List Char × PyVal)) :
    pyStr (.vDict d) ≠ [] := by
  show pyRepr (.vDict d) ≠ []
  rw [pyRepr]
  exact List.cons_ne_nil _ _

theorem pyStr_vList_ne_nil (l : List PyVal) :
    pyStr (.vList l) ≠ [] := by
  show pyRepr (.vList l) ≠ []
  rw [pyRepr]
  exact List.cons_ne_nil _ _

/-- The `dict` arm of `parse_gemini_response`, as an unfolding lemma. -/
theorem parse_gemini_response_vDict (d : List (List Char × PyVal)) :
    parse_gemini_response (.vDict d) =
      (match tryParseDict d with
       | some s => Except.ok s
       | none =>
         if pyStr (.vDict d) ≠ [] then Except.ok (pyStrip (pyStr (.vDict d)))
         else Except.error PyValueError.noTextExtracted) := rfl

/-- The `list` arm of `parse_gemini_response`, as an unfolding lemma. -/
theorem parse_gemini_response_vList (l : List PyVal) :
    parse_gemini_response (.vList l) =
      (if pyStr (.vList l) ≠ [] then Except.ok (pyStrip (pyStr (.vList l)))
       else Except.error PyValueError.noTextExtracted) := rfl

/-- C4: the recognized response shapes — `choices[0].message.content`,
flat `reply`, a `None` input raising, and the stringified-mapping fallback
for a mapping matched by none of the probes. -/
theorem parse_gemini_response_shapes :
    parse_gemini_response (.vDict [("choices".data,
        .vList [.vDict [("message".data, .vDict [("content".data, .vStr "X".data)])]])])
      = .ok "X".data ∧
    parse_gemini_response (.vDict [("reply".data, .vStr "Y".data)]) = .ok "Y".data ∧
    parse_gemini_response .vNone = .error .emptyResponse ∧
    ∀ d, tryParseDict d = none →
      parse_gemini_response (.vDict d) = .ok (pyStrip (pyStr (.vDict d))) := by
  refine ⟨rfl, rfl, rfl, ?_⟩
  intro d hd
  rw [parse_gemini_response_vDict, hd]
  dsimp only
  rw [if_pos (pyStr_vDict_ne_nil d)]

/-- Witness for C4's universally quantified fallback conjunct at a
concrete unrecognized mapping. -/
theorem parse_gemini_response_shapes_witness :
    parse_gemini_response (.vDict [("foo".data, .vStr "bar".data)]) =
      .ok (pyStrip (pyStr (.vDict [("foo".data, .vStr "bar".data)]))) :=
  parse_gemini_response_shapes.2.2.2 [("foo".data, .vStr "bar".data)] rfl

/-- C5: over the modelled value domain (`None`, `str`, `bytes`, `dict`,
`list`), `parse_gemini_response` raises exactly when the input is absent:
for every mapping the final stringification is non-empty (`str` of a dict
or list always renders brackets), so "every extraction path yields
nothing" cannot occur for a present input, and every present input
returns a string without raising. -/
theorem parse_gemini_response_raises_iff (resp : PyVal) :
    (∃ err, parse_gemini_response resp = .error err) ↔ resp = .vNone := by
  cases resp with
  | vNone => exact ⟨fun _ => rfl, fun _ => ⟨.emptyResponse, rfl⟩⟩
  | vStr s =>
    constructor
    · rintro ⟨err, herr⟩
      cases herr
    · intro h; cases h
  | vBytes b =>
    constructor
    · rintro ⟨err, herr⟩
      cases herr
    · intro h; cases h
  | vDict d =>
    constructor
    · rintro ⟨err, herr⟩
      rw [parse_gemini_response_vDict] at herr
      rcases h : tryParseDict d with _ | s <;> rw [h] at herr
      · rw [if_pos (pyStr_vDict_ne_nil d)] at herr
        cases herr
      · cases herr
    · intro h; cases h
  | vList l =>
    constructor
    · rintro ⟨err, herr⟩
      rw [parse_gemini_response_vList] at herr
      rw [if_pos (pyStr_vList_ne_nil l)] at herr
      cases herr
    · intro h; cases h

/-! ### `get_explanation` — the retry loop -/

/-- The output cleanup of `get_explanation` (`ai_explainer.py` line 182):
split the stripped explanation into lines, drop blank lines, right-trim
each, rejoin with newlines. -/
def cleanExplanation (s : List Char) : List Char :=
  joinWith ['\n'] ((pySplitlines (pyStrip s)).filterMap fun ln =>
    if pyStrip ln ≠ [] then some (pyRStrip ln) else none)

/-- One attempt of the loop body (`ai_explainer.py` lines 179-183): call
the client, parse the response, clean it.  The client is modelled as a
function from the attempt index to either a raised exception (`ε`) or a
returned value; exceptions from the call and from parsing are the two
sides of the sum. -/
def attemptOnce {ε : Type} (chat : Nat → Except ε PyVal) (n : Nat) :
    Except (ε ⊕ PyValueError) (List Char) :=
  match chat n with
  | .error e => .error (.inl e)
  | .ok resp =>
    match parse_gemini_response resp with
    | .error pe => .error (.inr pe)
    | .ok expl => .ok (cleanExplanation expl)

/-- The `while attempt <= retries` loop of `get_explanation`
(`ai_explainer.py` lines 176-196), instrumented: the result triple is
(outcome, number of attempts made, recorded sleeps).  On failure with
budget left it sleeps `backoff * 2 ^ ((attempt + 1) - 1)` seconds and
retries; once the budget is exhausted the last exception is re-raised.
The loop guard holds at every reachable call (`attempt ≤ retries`, true
at entry since `attempt = 0`). -/
def getExplanationAux {E A : Type} (step : Nat → Except E A) (retries : Nat)
    (backoff : ℚ) (attempt : Nat) : Except E A × Nat × List ℚ :=
  match step attempt with
  | .ok a => (.ok a, 1, [])
  | .error e =>
    if retries < attempt + 1 then (.error e, 1, [])
    else
      let r := getExplanationAux step retries backoff (attempt + 1)
      (r.1, r.2.1 + 1, (backoff * 2 ^ attempt) :: r.2.2)
termination_by retries - attempt
decreasing_by
  simp_wf
  omega

/-- `get_explanation(gemini_client, …, retries, backoff_seconds)`
(`ai_explainer.py` lines 149-196), instrumented with the attempt count
and the sleep schedule.  `backoff_seconds` is a Python float holding small
values multiplied by powers of two (exact in floating point), modelled as
a rational. -/
def get_explanation {ε : Type} (chat : Nat → Except ε PyVal) (retries : Nat)
    (backoff : ℚ) : Except (ε ⊕ PyValueError) (List Char) × Nat × List ℚ :=
  getExplanationAux (attemptOnce chat) retries backoff 0

theorem range_map_pow_succ (backoff : ℚ) (a m : Nat) :
    ((List.range (m + 1)).map fun i => backoff * 2 ^ (a + i)) =
      backoff * 2 ^ a :: ((List.range m).map fun i => backoff * 2 ^ (a + 1 + i)) := by
  rw [List.range_succ_eq_map, List.map_cons, List.map_map]
  refine congrArg₂ _ (by rw [Nat.add_zero]) ?_
  refine List.map_congr_left fun i hi => ?_
  show backoff * 2 ^ (a + (i + 1)) = backoff * 2 ^ (a + 1 + i)
  rw [show a + (i + 1) = a + 1 + i by omega]

theorem getExplanationAux_ok {E A : Type} (step : Nat → Except E A)
    (retries : Nat) (backoff : ℚ) :
    ∀ (m a : Nat) (v : A), a + m ≤ retries →
      (∀ j, a ≤ j → j < a + m → ∃ e, step j = .error e) →
      step (a + m) = .ok v →
      getExplanationAux step retries backoff a =
        (.ok v, m + 1, (List.range m).map fun i => backoff * 2 ^ (a + i)) := by
  intro m
  induction m with
  | zero =>
    intro a v hle hfail hok
    rw [getExplanationAux]
    rw [Nat.add_zero] at hok
    rw [hok]
    dsimp only
    simp
  | succ m ih =>
    intro a v hle hfail hok
    obtain ⟨e, he⟩ := hfail a (Nat.le_refl _) (by omega)
    rw [getExplanationAux, he]
    dsimp only
    rw [if_neg (by omega)]
    have hrec := ih (a + 1) v (by omega)
      (fun j hj1 hj2 => hfail j (by omega) (by omega))
      (by rw [show a + 1 + m = a + (m + 1) by omega]; exact hok)
    rw [hrec, range_map_pow_succ]

theorem getExplanationAux_allFail {E A : Type} (step : Nat → Except E A)
    (retries : Nat) (backoff : ℚ) :
    ∀ (m a : Nat), a + m = retries →
      (∀ j, a ≤ j → j ≤ retries → ∃ e, step j = .error e) →
      ∃ e, step retries = .error e ∧
        getExplanationAux step retries backoff a =
          (.error e, m + 1, (List.range m).map fun i => backoff * 2 ^ (a + i)) := by
  intro m
  induction m with
  | zero =>
    intro a heq hfail
    obtain ⟨e, he⟩ := hfail a (Nat.le_refl _) (by omega)
    refine ⟨e, by rw [← heq, Nat.add_zero]; exact he, ?_⟩
    rw [getExplanationAux]
    rw [Nat.add_zero] at heq
    rw [heq] at he ⊢
    rw [he]
    dsimp only
    rw [if_pos (by omega)]
    simp
  | succ m ih =>
    intro a heq hfail
    obtain ⟨e0, he0⟩ := hfail a (Nat.le_refl _) (by omega)
    obtain ⟨e, helast, hrec⟩ := ih (a + 1) (by omega)
      (fun j hj1 hj2 => hfail j (by omega) hj2)
    refine ⟨e, helast, ?_⟩
    rw [getExplanationAux, he0]
    dsimp only
    rw [if_neg (by omega), hrec, range_map_pow_succ]

theorem getExplanationAux_calls_le {E A : Type} (step : Nat → Except E A)
    (retries : Nat) (backoff : ℚ) :
    ∀ (m a : Nat), a ≤ retries → retries + 1 ≤ a + m →
      (getExplanationAux step retries backoff a).2.1 ≤ m := by
  intro m
  induction m with
  | zero =>
    intro a h1 h2
    omega
  | succ m ih =>
    intro a h1 h2
    rw [getExplanationAux]
    rcases hs : step a with e | v
    · dsimp only
      by_cases hb : retries < a + 1
      · rw [if_pos hb]
        show 1 ≤ m + 1
        omega
      · rw [if_neg hb]
        have := ih (a + 1) (by omega) (by omega)
        simpa using Nat.succ_le_succ this
    · dsimp only
      show 1 ≤ m + 1
      omega

/-- C2: the retry protocol of `get_explanation`.  (1) At most
`retries + 1` calls are made to the client.  (2) If the first `k`
attempts raise and attempt `k ≤ retries` succeeds, the call returns that
success after exactly `k + 1` attempts, having slept
`backoff * 2 ^ (attempt - 1)` between consecutive attempts
(`[backoff * 2 ^ 0, …, backoff * 2 ^ (k-1)]`).  (3) If every attempt in
the budget raises, the call makes exactly `retries + 1` attempts, sleeps
`retries` times on the same schedule, and re-raises the last exception
unchanged.  (4) A client that raises once then succeeds, with
`retries = 1`: the successful result, exactly two calls, exactly one
sleep of `backoff`.  (5) A client that always raises, with `retries = 0`:
the original exception propagates and no sleep happens. -/
theorem get_explanation_retry_protocol :
    (∀ (ε : Type) (chat : Nat → Except ε PyVal) (retries : Nat) (backoff : ℚ),
      (get_explanation chat retries backoff).2.1 ≤ retries + 1) ∧
    (∀ (ε : Type) (chat : Nat → Except ε PyVal) (retries : Nat) (backoff : ℚ)
      (k : Nat) (v : List Char), k ≤ retries →
      attemptOnce chat k = .ok v →
      (∀ j, j < k → ∃ e, attemptOnce chat j = .error e) →
      get_explanation chat retries backoff =
        (.ok v, k + 1, (List.range k).map fun i => backoff * 2 ^ i)) ∧
    (∀ (ε : Type) (chat : Nat → Except ε PyVal) (retries : Nat) (backoff : ℚ),
      (∀ j, j ≤ retries → ∃ e, attemptOnce chat j = .error e) →
      ∃ e, attemptOnce chat retries = .error e ∧
        get_explanation chat retries backoff =
          (.error e, retries + 1, (List.range retries).map fun i => backoff * 2 ^ i)) ∧
    (∀ (ε : Type) (e : ε) (resp : PyVal) (expl : List Char) (backoff : ℚ),
      parse_gemini_response resp = .ok expl →
      get_explanation (fun n => if n = 0 then .error e else .ok resp) 1 backoff =
        (.ok (cleanExplanation expl), 2, [backoff])) ∧
    (∀ (ε : Type) (e : ε) (backoff : ℚ),
      get_explanation (fun _ => .error e) 0 backoff =
        (.error (.inl e), 1, [])) := by
  refine ⟨?_, ?_, ?_, ?_, ?_⟩
  · intro ε chat retries backoff
    exact getExplanationAux_calls_le (attemptOnce chat) retries backoff
      (retries + 1) 0 (Nat.zero_le _) (by omega)
  · intro ε chat retries backoff k v hk hok hfail
    have h := getExplanationAux_ok (attemptOnce chat) retries backoff k 0 v
      (by omega) (fun j hj1 hj2 => hfail j (by omega)) (by rw [Nat.zero_add]; exact hok)
    unfold get_explanation
    rw [h]
    refine congrArg _ (congrArg _ ?_)
    exact List.map_congr_left fun i hi => by rw [Nat.zero_add]
  · intro ε chat retries backoff hfail
    obtain ⟨e, hlast, heq⟩ := getExplanationAux_allFail (attemptOnce chat)
      retries backoff retries 0 (by omega) (fun j hj1 hj2 => hfail j hj2)
    refine ⟨e, hlast, ?_⟩
    unfold get_explanation
    rw [heq]
    refine congrArg _ (congrArg _ ?_)
    exact List.map_congr_left fun i hi => by rw [Nat.zero_add]
  · intro ε e resp expl backoff hparse
    have hstep1 : attemptOnce (fun n => if n = 0 then Except.error e else Except.ok resp) 1
        = .ok (cleanExplanation expl) := by
      show (match parse_gemini_response resp with
            | Except.error pe => Except.error (Sum.inr pe)
            | Except.ok expl => Except.ok (cleanExplanation expl))
          = Except.ok (cleanExplanation expl)
      rw [hparse]
    have h := getExplanationAux_ok
      (attemptOnce (fun n => if n = 0 then Except.error e else Except.ok resp)) 1 backoff
      1 0 (cleanExplanation expl) (by omega)
      (fun j hj1 hj2 => ⟨Sum.inl e, by
        have hj0 : j = 0 := by omega
        subst hj0
        rfl⟩)
      (by rw [Nat.zero_add]; exact hstep1)
    unfold get_explanation
    rw [h]
    rw [show List.range 1 = [0] from rfl]
    norm_num
  · intro ε e backoff
    have hstep : attemptOnce (fun _ : Nat => Except.error (α := PyVal) e) 0
        = .error (.inl e) := rfl
    obtain ⟨e', hlast, heq⟩ := getExplanationAux_allFail
      (attemptOnce (fun _ : Nat => Except.error (α := PyVal) e)) 0 backoff 0 0 rfl
      (fun j hj1 hj2 => ⟨Sum.inl e, rfl⟩)
    have he' : e' = Sum.inl e := by
      rw [hstep] at hlast
      cases hlast
      rfl
    subst he'
    unfold get_explanation
    rw [heq]
    rfl

/-- Witness for C2 at concrete clients: raise-once-then-succeed with one
retry returns the cleaned result after two calls and one sleep; an
always-raising client with no retries propagates the original exception
with no sleep. -/
theorem get_explanation_retry_protocol_witness :
    get_explanation (fun n : Nat => if n = 0 then .error () else .ok (.vStr "ok".data)) 1 1 =
      (.ok (cleanExplanation (pyStrip "ok".data)), 2, [1]) ∧
    get_explanation (fun _ : Nat => .error ()) 0 1 = (.error (.inl ()), 1, []) :=
  ⟨get_explanation_retry_protocol.2.2.2.1 Unit () (.vStr "ok".data)
      (pyStrip "ok".data) 1 rfl,
   get_explanation_retry_protocol.2.2.2.2 Unit () 1⟩

/-! ## `src/utils/win_event_reader.py` — the dual-strategy reader -/

/-- Tab-joined single-line summary shape shared by both strategies. -/
def tabJoin (parts : List (List Char)) : List Char := joinWith ['\t'] parts

/-- A pywin32 `EventLogRecord` in the shape `_format_win32_event` reads:
the formatted time string, source name, event id, event type, and string
inserts.  (The `getattr`/`try` fallbacks of the source collapse in this
typed model; a record whose attribute access raises is modelled at the
reading level as a formatting failure.) -/
structure WinEvt where
  timeStr : List Char
  source : List Char
  eventID : Nat
  eventType : Nat
  inserts : List (List Char)

/-- Decimal rendering of a natural number (`f"{n}"`). -/
def natToStr (n : Nat) : List Char := Nat.toDigits 10 n

/-- `_format_win32_event(evt)` (`win_event_reader.py` lines 47-73). -/
def _format_win32_event (evt : WinEvt) : List Char :=
  let message0 := pyStrip (joinWith [' '] (evt.inserts.filter fun s => ¬ s.isEmpty))
  let message := if 300 < message0.length then message0.take 300 ++ "...".data
    else message0
  pyStrip (tabJoin [evt.timeStr, evt.source,
    "ID:".data ++ natToStr (evt.eventID &&& 0xFFFF),
    "Type:".data ++ natToStr evt.eventType, message])

/-- The accumulator state of the `for ln in lines` loop of
`_parse_wevtutil_output_block`. -/
structure WevState where
  date : List Char
  provider : List Char
  event_id : List Char
  level : List Char
  message_lines : List (List Char)

/-- `ln.split(":", 1)[1]`: everything after the first colon (callers
guarantee a colon is present in the recognized-prefix cases). -/
def splitColonRest (ln : List Char) : List Char :=
  match ln.dropWhile fun c => ¬ c = ':' with
  | _ :: rest => rest
  | [] => []

/-- Python `str.lower()` (ASCII). -/
def lowerL (l : List Char) : List Char := l.map Char.toLower

/-- One iteration of the line loop of `_parse_wevtutil_output_block`
(`win_event_reader.py` lines 134-157): recognize the case-insensitive
field prefixes; a `Message:` value is appended when non-empty; any other
line is accumulated as message content. -/
def wevLineStep (st : WevState) (ln : List Char) : WevState :=
  let low := lowerL ln
  if "date:".data.isPrefixOf low then
    { st with date := pyStrip (splitColonRest ln) }
  else if "provider:".data.isPrefixOf low then
    { st with provider := pyStrip (splitColonRest ln) }
  else if "event id:".data.isPrefixOf low || "eventid:".data.isPrefixOf low then
    { st with event_id := pyStrip (splitColonRest ln) }
  else if "level:".data.isPrefixOf low then
    { st with level := pyStrip (splitColonRest ln) }
  else if "message:".data.isPrefixOf low then
    let msg := pyStrip (splitColonRest ln)
    if msg ≠ [] then { st with message_lines := st.message_lines ++ [msg] } else st
  else
    { st with message_lines := st.message_lines ++ [ln] }

/-- The cleaned lines of a block (`win_event_reader.py` line 126):
`[ln.strip() for ln in block.splitlines() if ln.strip()]`. -/
def wevCleanLines (block : List Char) : List (List Char) :=
  (pySplitlines block).filterMap fun ln =>
    if pyStrip ln ≠ [] then some (pyStrip ln) else none

/-- The final accumulator state of the line loop of
`_parse_wevtutil_output_block` over a block's cleaned lines. -/
def wevFields (block : List Char) : WevState :=
  (wevCleanLines block).foldl wevLineStep ⟨[], [], [], [], []⟩

/-- The assembled summary given the extracted fields
(`win_event_reader.py` lines 159-166): truncate the joined message, drop
falsy parts, tab-join. -/
def wevAssemble (st : WevState) : List Char :=
  let message0 := pyStrip (joinWith [' '] st.message_lines)
  let message := if 300 < message0.length then message0.take 300 ++ "...".data
    else message0
  let parts := [st.date, st.provider,
    (if st.event_id ≠ [] then "ID:".data ++ st.event_id else []),
    (if st.level ≠ [] then "Level:".data ++ st.level else []),
    message].filter fun p => ¬ p.isEmpty
  tabJoin parts

/-- `_parse_wevtutil_output_block(block)` (`win_event_reader.py` lines
119-166). -/
def _parse_wevtutil_output_block (block : List Char) : Option (List Char) :=
  if block = [] ∨ pyStrip block = [] then none
  else
    let summary := wevAssemble (wevFields block)
    if summary ≠ [] then some summary else none

/-- The environment a read runs in: the platform test, pywin32
availability, and the external effects, all modelled as functions.  `ε` is the
exception type of the external calls; an `Except.error` is an exception
the source catches. -/
structure WinEnv (ε : Type) where
  isWindows : Bool
  win32Available : Bool
  openLog : List Char → Except ε Unit
  readBatch : Nat → Except ε (List (Except ε WinEvt))
  runWevtutil : List Char → Nat → Except ε (List Char × List Char)

/-- The `for evt in batch` loop of `_read_with_pywin32`
(`win_event_reader.py` lines 100-107): formatting failures are logged and
skipped but still count toward the record limit; stop once the limit is
reached. -/
def processBatch (maxR : Nat) : List (Except ε WinEvt) → Nat → List (List Char) →
    Nat × List (List Char)
  | [], t, acc => (t, acc)
  | r :: rs, t, acc =>
    let acc' := match r with
      | .ok evt => acc ++ [_format_win32_event evt]
      | .error _ => acc
    let t' := t + 1
    if maxR ≤ t' then (t', acc') else processBatch maxR rs t' acc'

theorem processBatch_total_ge {ε : Type} (maxR : Nat) :
    ∀ (rs : List (Except ε WinEvt)) (t : Nat) (acc : List (List Char)),
      t ≤ (processBatch maxR rs t acc).1 := by
  intro rs
  induction rs with
  | nil => intro t acc; exact Nat.le_refl _
  | cons r rs ih =>
    intro t acc
    rw [processBatch.eq_def]
    dsimp only
    split
    · exact Nat.le_succ _
    · exact Nat.le_trans (Nat.le_succ _) (ih (t + 1) _)

/-- The `while total < max_records` loop of `_read_with_pywin32`
(`win_event_reader.py` lines 93-107); `callIdx` counts the
`ReadEventLog` calls, an exception or an empty batch breaks. -/
def pywin32Loop {ε : Type} (env : WinEnv ε) (maxR : Nat) (callIdx total : Nat)
    (acc : List (List Char)) : List (List Char) :=
  if h : total < maxR then
    match env.readBatch callIdx with
    | .error _ => acc
    | .ok [] => acc
    | .ok (r :: rs) =>
      let res := processBatch maxR (r :: rs) total acc
      pywin32Loop env maxR (callIdx + 1) res.1 res.2
  else acc
termination_by maxR - total
decreasing_by
  simp_wf
  have h1 : total + 1 ≤ (processBatch maxR (r :: rs) total acc).1 := by
    rw [processBatch.eq_def]
    dsimp only
    split
    · exact Nat.le_refl _
    · exact processBatch_total_ge maxR rs (total + 1) _
  omega

/-- `_read_with_pywin32(log_type, max_records)` (`win_event_reader.py`
lines 76-116): nothing without pywin32; a failed `OpenEventLog` is caught
and yields `[]`; otherwise the batch loop runs (handle release is a
no-op in the model). -/
def _read_with_pywin32 {ε : Type} (env : WinEnv ε) (log_type : List Char)
    (max_records : Nat) : List (List Char) :=
  if ¬ env.win32Available then []
  else
    match env.openLog log_type with
    | .error _ => []
    | .ok _ => pywin32Loop env max_records 0 0 []

/-- `out.replace("\r\n", "\n").replace("\r", "\n")`
(`win_event_reader.py` line 191). -/
def normalizeNl : List Char → List Char
  | [] => []
  | '\r' :: '\n' :: rest => '\n' :: normalizeNl rest
  | '\r' :: rest => '\n' :: normalizeNl rest
  | c :: rest => c :: normalizeNl rest

/-- `normalized.split("\n\n")` — Python literal `str.split`, scanning
left to right for non-overlapping separators. -/
def pySplitDoubleNl : List Char → List Char → List (List Char)
  | [], cur => [cur.reverse]
  | '\n' :: '\n' :: rest, cur => cur.reverse :: pySplitDoubleNl rest []
  | c :: rest, cur => pySplitDoubleNl rest (c :: cur)

/-- `_read_with_wevtutil(log_type, max_records)` (`win_event_reader.py`
lines 169-201), instrumented with the number of subprocess invocations:
not Windows → no call and `[]`; a timeout or failure of the subprocess is
caught and yields `[]`; otherwise stdout (or stderr when stdout is empty)
is normalized, split into blank-line blocks, and the first `max_records`
blocks are parsed. -/
def _read_with_wevtutil {ε : Type} (env : WinEnv ε) (log_type : List Char)
    (max_records : Nat) : List (List Char) × Nat :=
  if ¬ env.isWindows then ([], 0)
  else
    match env.runWevtutil log_type max_records with
    | .error _ => ([], 1)
    | .ok (stdout, stderr) =>
      let out := if ¬ stdout.isEmpty then stdout else stderr
      if out.isEmpty then ([], 1)
      else
        let normalized := normalizeNl out
        let blocks := (pySplitDoubleNl normalized []).filterMap fun b =>
          if pyStrip b ≠ [] then some (pyStrip b) else none
        ((blocks.take max_records).filterMap _parse_wevtutil_output_block, 1)

/-- `read_windows_event_log(log_type, max_records)` (`win_event_reader.py`
lines 204-234), instrumented with the number of external-process
invocations: non-Windows → `[]` immediately; prefer pywin32 when
available, falling through to wevtutil when it returns nothing. -/
def read_windows_event_log {ε : Type} (env : WinEnv ε) (log_type : List Char)
    (max_records : Nat) : List (List Char) × Nat :=
  if ¬ env.isWindows then ([], 0)
  else if env.win32Available then
    let events := _read_with_pywin32 env log_type max_records
    if ¬ events.isEmpty then (events, 0)
    else _read_with_wevtutil env log_type max_records
  else _read_with_wevtutil env log_type max_records

theorem processBatch_fst_acc_indep {ε : Type} (maxR : Nat) :
    ∀ (rs : List (Except ε WinEvt)) (t : Nat) (acc acc' : List (List Char)),
      (processBatch maxR rs t acc).1 = (processBatch maxR rs t acc').1 := by
  intro rs
  induction rs with
  | nil => intro t acc acc'; rfl
  | cons r rs ih =>
    intro t acc acc'
    rw [processBatch.eq_def, processBatch.eq_def]
    dsimp only
    split
    · rfl
    · exact ih (t + 1) _ _

theorem processBatch_acc_le {ε : Type} (maxR : Nat) :
    ∀ (rs : List (Except ε WinEvt)) (t : Nat) (acc : List (List Char)),
      (processBatch maxR rs t acc).2.length ≤
        acc.length + ((processBatch maxR rs t acc).1 - t) := by
  intro rs
  induction rs with
  | nil => intro t acc; simp [processBatch]
  | cons r rs ih =>
    intro t acc
    rw [processBatch.eq_def]
    rcases r with e | evt <;> dsimp only
    · split
      · dsimp only
        omega
      · have hrec := ih (t + 1) acc
        have hge := processBatch_total_ge maxR rs (t + 1) acc
        omega
    · split
      · dsimp only
        simp only [List.length_append, List.length_cons, List.length_nil]
        omega
      · have hrec := ih (t + 1) (acc ++ [_format_win32_event evt])
        have hge := processBatch_total_ge maxR rs (t + 1) (acc ++ [_format_win32_event evt])
        simp only [List.length_append, List.length_cons, List.length_nil] at hrec
        omega

theorem processBatch_total_le {ε : Type} (maxR : Nat) :
    ∀ (rs : List (Except ε WinEvt)) (t : Nat) (acc : List (List Char)),
      t < maxR → (processBatch maxR rs t acc).1 ≤ maxR := by
  intro rs
  induction rs with
  | nil => intro t acc h; exact Nat.le_of_lt h
  | cons r rs ih =>
    intro t acc h
    rw [processBatch.eq_def]
    dsimp only
    split
    · omega
    · rename_i hlt
      exact ih (t + 1) _ (by omega)

theorem pywin32Loop_length_le {ε : Type} (env : WinEnv ε) (maxR : Nat) :
    ∀ (fuel callIdx total : Nat) (acc : List (List Char)),
      maxR - total ≤ fuel → acc.length ≤ total → total ≤ maxR →
      (pywin32Loop env maxR callIdx total acc).length ≤ maxR := by
  intro fuel
  induction fuel with
  | zero =>
    intro callIdx total acc hf hacc htot
    rw [pywin32Loop.eq_def]
    rw [dif_neg (by omega)]
    omega
  | succ n ih =>
    intro callIdx total acc hf hacc htot
    rw [pywin32Loop.eq_def]
    by_cases hlt : total < maxR
    · rw [dif_pos hlt]
      rcases hb : env.readBatch callIdx with e | batch
      · dsimp only
        omega
      · rcases batch with _ | ⟨r, rs⟩
        · dsimp only
          omega
        · dsimp only
          have h1 : total + 1 ≤ (processBatch maxR (r :: rs) total acc).1 := by
            rw [processBatch.eq_def]
            dsimp only
            split
            · exact Nat.le_refl _
            · exact processBatch_total_ge maxR rs (total + 1) _
          have h2 := processBatch_acc_le maxR (r :: rs) total acc
          have h3 := processBatch_total_le maxR (r :: rs) total acc hlt
          exact ih (callIdx + 1) (processBatch maxR (r :: rs) total acc).1
            (processBatch maxR (r :: rs) total acc).2
            (by omega) (by omega) h3
    · rw [dif_neg hlt]
      omega

/-- C7: on a non-Windows platform `read_windows_event_log` returns an
empty sequence immediately and launches no external process; and whenever
both strategies fail or come back empty (failures of the external calls
are caught inside the strategies, which is why the whole embedding is a
total function — no exception escapes), the result is the empty
sequence. -/
theorem read_windows_event_log_failure_modes :
    (∀ (ε : Type) (env : WinEnv ε) (log_type : List Char) (max_records : Nat),
      env.isWindows = false →
      read_windows_event_log env log_type max_records = ([], 0)) ∧
    (∀ (ε : Type) (env : WinEnv ε) (log_type : List Char) (max_records : Nat),
      _read_with_pywin32 env log_type max_records = [] →
      (_read_with_wevtutil env log_type max_records).1 = [] →
      (read_windows_event_log env log_type max_records).1 = []) := by
  constructor
  · intro ε env lt mr h
    unfold read_windows_event_log
    rw [h]
    simp
  · intro ε env lt mr h1 h2
    unfold read_windows_event_log
    by_cases hw : env.isWindows
    · rw [if_neg (by simp [hw])]
      by_cases hav : env.win32Available
      · rw [if_pos hav]
        dsimp only
        rw [h1]
        simp only [List.isEmpty_nil, Bool.not_true]
        rw [if_neg (by simp)]
        exact h2
      · rw [if_neg hav]
        exact h2
    · rw [if_pos (by simp [hw])]

/-- An environment that is not Windows at all, for the C7 witness. -/
def offlineEnv : WinEnv Unit :=
  ⟨false, false, fun _ => .error (), fun _ => .error (), fun _ _ => .error ()⟩

/-- A Windows environment where pywin32 is unavailable and the subprocess
always fails, for the C7 witness. -/
def failingEnv : WinEnv Unit :=
  ⟨true, false, fun _ => .error (), fun _ => .error (), fun _ _ => .error ()⟩

/-- Witness for C7 at concrete environments. -/
theorem read_windows_event_log_failure_modes_witness :
    read_windows_event_log offlineEnv "System".data 10 = ([], 0) ∧
    (read_windows_event_log failingEnv "System".data 10).1 = [] :=
  ⟨read_windows_event_log_failure_modes.1 Unit offlineEnv "System".data 10 rfl,
   read_windows_event_log_failure_modes.2 Unit failingEnv "System".data 10 rfl rfl⟩

/-- C10: for every channel and `max_records`, the reader returns at most
`max_records` summaries; the native loop counts failed-to-format records
toward the limit exactly like formatted ones (the consumed total does not
depend on whether a record formats), and the export-tool path parses at
most the first `max_records` blocks, each contributing at most one
summary. -/
theorem read_windows_event_log_limit :
    (∀ (ε : Type) (env : WinEnv ε) (log_type : List Char) (max_records : Nat),
      (read_windows_event_log env log_type max_records).1.length ≤ max_records) ∧
    (∀ (ε : Type) (env : WinEnv ε) (log_type : List Char) (max_records : Nat),
      (_read_with_pywin32 env log_type max_records).length ≤ max_records) ∧
    (∀ (ε : Type) (env : WinEnv ε) (log_type : List Char) (max_records : Nat),
      (_read_with_wevtutil env log_type max_records).1.length ≤ max_records) ∧
    (∀ (ε : Type) (maxR : Nat) (e : ε) (w : WinEvt) (rs : List (Except ε WinEvt))
      (t : Nat) (acc : List (List Char)),
      (processBatch maxR (.error e :: rs) t acc).1 =
        (processBatch maxR (.ok w :: rs) t acc).1) := by
  have hpy : ∀ (ε : Type) (env : WinEnv ε) (log_type : List Char) (max_records : Nat),
      (_read_with_pywin32 env log_type max_records).length ≤ max_records := by
    intro ε env lt mr
    unfold _read_with_pywin32
    split
    · simp
    · rcases env.openLog lt with e | u
      · simp
      · exact pywin32Loop_length_le env mr (mr - 0) 0 0 []
          (Nat.le_refl _) (Nat.le_refl _) (Nat.zero_le _)
  have hgen : ∀ (mr : Nat) (out : List Char),
      ((((pySplitDoubleNl (normalizeNl out) []).filterMap fun b =>
        if pyStrip b ≠ [] then some (pyStrip b) else none).take mr).filterMap
        _parse_wevtutil_output_block).length ≤ mr := by
    intro mr out
    refine Nat.le_trans (List.length_filterMap_le _ _) ?_
    rw [List.length_take]
    omega
  have hwev : ∀ (ε : Type) (env : WinEnv ε) (log_type : List Char) (max_records : Nat),
      (_read_with_wevtutil env log_type max_records).1.length ≤ max_records := by
    intro ε env lt mr
    unfold _read_with_wevtutil
    split
    · simp
    · rcases env.runWevtutil lt mr with e | ⟨stdout, stderr⟩
      · simp
      · dsimp only
        by_cases hout : (if ¬ stdout.isEmpty then stdout else stderr).isEmpty
        · rw [if_pos hout]
          simp
        · rw [if_neg hout]
          exact hgen mr _
  refine ⟨?_, hpy, hwev, ?_⟩
  · intro ε env lt mr
    unfold read_windows_event_log
    split
    · simp
    · split
      · dsimp only
        split
        · exact hpy ε env lt mr
        · exact hwev ε env lt mr
      · exact hwev ε env lt mr
  · intro ε maxR e w rs t acc
    rw [processBatch.eq_def, processBatch.eq_def]
    dsimp only
    split
    · rfl
    · exact processBatch_fst_acc_indep maxR rs (t + 1) _ _

/-! ### Recognition lemmas for the block parser (support for C6) -/

theorem isPrefixOf_append_self : ∀ (l t : List Char), l.isPrefixOf (l ++ t) = true := by
  intro l t
  induction l with
  | nil => simp [List.isPrefixOf]
  | cons a as ih => simpa [List.isPrefixOf] using ih

theorem char_toNat_ofNat_valid (n : Nat) (h : n.isValidChar) :
    (Char.ofNat n).toNat = n := by
  unfold Char.ofNat
  rw [dif_pos h]
  unfold Char.ofNatAux
  unfold Char.toNat
  show (BitVec.ofNatLt n _).toNat = n
  exact BitVec.toNat_ofNatLt _ _

theorem toLower_eq_colon {c : Char} (h : Char.toLower c = ':') : c = ':' := by
  unfold Char.toLower at h
  dsimp only at h
  by_cases hc : c.toNat ≥ 65 ∧ c.toNat ≤ 90
  · exfalso
    rw [if_pos hc] at h
    have hval : (c.toNat + 32).isValidChar := Or.inl (by omega)
    have h2 := congrArg Char.toNat h
    rw [char_toNat_ofNat_valid _ hval] at h2
    have h58 : Char.toNat ':' = 58 := rfl
    omega
  · rw [if_neg hc] at h
    exact h

theorem lowerL_append (a b : List Char) : lowerL (a ++ b) = lowerL a ++ lowerL b := by
  unfold lowerL
  exact List.map_append _ _ _

theorem lower_split_colon : ∀ (pat pre : List Char), (∀ c ∈ pat, ¬ c = ':') →
    lowerL pre = pat ++ [':'] →
    ∃ pre₀, pre = pre₀ ++ [':'] ∧ (∀ c ∈ pre₀, ¬ c = ':') := by
  intro pat
  induction pat with
  | nil =>
    intro pre hpat h
    rcases pre with _ | ⟨c, pre2⟩
    · simp [lowerL] at h
    · rcases pre2 with _ | ⟨d, pre3⟩
      · simp only [lowerL, List.map_cons, List.map_nil, List.nil_append,
          List.cons.injEq, and_true] at h
        exact ⟨[], by rw [toLower_eq_colon h]; rfl, by intro c hc2; cases hc2⟩
      · exfalso
        have hlen := congrArg List.length h
        simp [lowerL] at hlen
  | cons x xs ih =>
    intro pre hpat h
    rcases pre with _ | ⟨c, pre2⟩
    · simp [lowerL] at h
    · simp only [lowerL, List.map_cons, List.cons_append, List.cons.injEq] at h
      obtain ⟨h1, h2⟩ := h
      have h2L : lowerL pre2 = xs ++ [':'] := h2
      obtain ⟨pre₀, hp, hnc⟩ := ih pre2 (fun c hc => hpat c (List.mem_cons_of_mem _ hc)) h2L
      refine ⟨c :: pre₀, by rw [List.cons_append, hp], ?_⟩
      intro d hd
      rcases List.mem_cons.mp hd with rfl | hd2
      · intro hcol
        subst hcol
        exact hpat x (List.mem_cons_self _ _) (by rw [← h1]; rfl)
      · exact hnc d hd2

theorem splitColonRest_append : ∀ (pre₀ : List Char), (∀ c ∈ pre₀, ¬ c = ':') →
    ∀ (rest : List Char), splitColonRest (pre₀ ++ ':' :: rest) = rest := by
  intro pre₀
  induction pre₀ with
  | nil =>
    intro h rest
    unfold splitColonRest
    rw [List.nil_append, List.dropWhile_cons]
    simp
  | cons a as ih =>
    intro h rest
    have ha : ¬ a = ':' := h a (List.mem_cons_self _ _)
    unfold splitColonRest
    rw [List.cons_append, List.dropWhile_cons]
    rw [if_pos (by simpa using ha)]
    have := ih (fun c hc => h c (List.mem_cons_of_mem _ hc)) rest
    unfold splitColonRest at this
    exact this

theorem wevValue_of_lower (pat : List Char) {pre : List Char} (rest : List Char)
    (h : lowerL pre = pat ++ [':']) (hpat : ∀ c ∈ pat, ¬ c = ':') :
    splitColonRest (pre ++ rest) = rest := by
  obtain ⟨pre₀, hp, hnc⟩ := lower_split_colon pat pre hpat h
  rw [hp, List.append_assoc]
  exact splitColonRest_append pre₀ hnc rest

theorem isPrefixOf_false_append : ∀ (p q x : List Char),
    (p.take q.length).isPrefixOf q = false → p.isPrefixOf (q ++ x) = false := by
  intro p
  induction p with
  | nil =>
    intro q x h
    simp [List.isPrefixOf] at h
  | cons a as ih =>
    intro q x h
    rcases q with _ | ⟨b, bs⟩
    · simp [List.isPrefixOf] at h
    · rw [List.cons_append]
      simp only [List.length_cons, List.take_succ_cons, List.isPrefixOf] at h ⊢
      rcases hab : a == b with _ | _
      · simp [hab]
      · rw [hab] at h
        simp only [Bool.true_and] at h ⊢
        exact ih bs x h

theorem wevLineStep_date (st : WevState) (pre rest : List Char)
    (h : lowerL pre = "date:".data) :
    wevLineStep st (pre ++ rest) = { st with date := pyStrip rest } := by
  have hval : splitColonRest (pre ++ rest) = rest :=
    wevValue_of_lower "date".data rest (by rw [h]; decide) (by decide)
  unfold wevLineStep
  dsimp only
  rw [lowerL_append, h, hval]
  rw [if_pos (isPrefixOf_append_self "date:".data (lowerL rest))]

theorem wevLineStep_provider (st : WevState) (pre rest : List Char)
    (h : lowerL pre = "provider:".data) :
    wevLineStep st (pre ++ rest) = { st with provider := pyStrip rest } := by
  have hval : splitColonRest (pre ++ rest) = rest :=
    wevValue_of_lower "provider".data rest (by rw [h]; decide) (by decide)
  have h1 : "date:".data.isPrefixOf ("provider:".data ++ lowerL rest) = false :=
    isPrefixOf_false_append _ _ _ (by decide)
  unfold wevLineStep
  dsimp only
  rw [lowerL_append, h, hval]
  rw [if_neg (by simp [h1])]
  rw [if_pos (isPrefixOf_append_self "provider:".data (lowerL rest))]

theorem wevLineStep_event_id (st : WevState) (pre rest : List Char)
    (h : lowerL pre = "event id:".data ∨ lowerL pre = "eventid:".data) :
    wevLineStep st (pre ++ rest) = { st with event_id := pyStrip rest } := by
  rcases h with h | h
  · have hval : splitColonRest (pre ++ rest) = rest :=
      wevValue_of_lower "event id".data rest (by rw [h]; decide) (by decide)
    have h1 : "date:".data.isPrefixOf ("event id:".data ++ lowerL rest) = false :=
      isPrefixOf_false_append _ _ _ (by decide)
    have h2 : "provider:".data.isPrefixOf ("event id:".data ++ lowerL rest) = false :=
      isPrefixOf_false_append _ _ _ (by decide)
    unfold wevLineStep
    dsimp only
    rw [lowerL_append, h, hval]
    rw [if_neg (by simp [h1]), if_neg (by simp [h2])]
    rw [if_pos (by
      rw [isPrefixOf_append_self "event id:".data (lowerL rest)]
      rfl)]
  · have hval : splitColonRest (pre ++ rest) = rest :=
      wevValue_of_lower "eventid".data rest (by rw [h]; decide) (by decide)
    have h1 : "date:".data.isPrefixOf ("eventid:".data ++ lowerL rest) = false :=
      isPrefixOf_false_append _ _ _ (by decide)
    have h2 : "provider:".data.isPrefixOf ("eventid:".data ++ lowerL rest) = false :=
      isPrefixOf_false_append _ _ _ (by decide)
    unfold wevLineStep
    dsimp only
    rw [lowerL_append, h, hval]
    rw [if_neg (by simp [h1]), if_neg (by simp [h2])]
    rw [if_pos (by
      rw [isPrefixOf_append_self "eventid:".data (lowerL rest)]
      simp)]

theorem wevLineStep_level (st : WevState) (pre rest : List Char)
    (h : lowerL pre = "level:".data) :
    wevLineStep st (pre ++ rest) = { st with level := pyStrip rest } := by
  have hval : splitColonRest (pre ++ rest) = rest :=
    wevValue_of_lower "level".data rest (by rw [h]; decide) (by decide)
  have h1 : "date:".data.isPrefixOf ("level:".data ++ lowerL rest) = false :=
    isPrefixOf_false_append _ _ _ (by decide)
  have h2 : "provider:".data.isPrefixOf ("level:".data ++ lowerL rest) = false :=
    isPrefixOf_false_append _ _ _ (by decide)
  have h3 : "event id:".data.isPrefixOf ("level:".data ++ lowerL rest) = false :=
    isPrefixOf_false_append _ _ _ (by decide)
  have h4 : "eventid:".data.isPrefixOf ("level:".data ++ lowerL rest) = false :=
    isPrefixOf_false_append _ _ _ (by decide)
  unfold wevLineStep
  dsimp only
  rw [lowerL_append, h, hval]
  rw [if_neg (by simp [h1]), if_neg (by simp [h2]), if_neg (by simp [h3, h4])]
  rw [if_pos (isPrefixOf_append_self "level:".data (lowerL rest))]

/-- Is a line one of the six recognized structural prefixes
(case-insensitively)? -/
def wevStructural (ln : List Char) : Bool :=
  let low := lowerL ln
  "date:".data.isPrefixOf low || "provider:".data.isPrefixOf low ||
  "event id:".data.isPrefixOf low || "eventid:".data.isPrefixOf low ||
  "level:".data.isPrefixOf low || "message:".data.isPrefixOf low

theorem wevLineStep_unrecognized (st : WevState) (ln : List Char)
    (h : wevStructural ln = false) :
    wevLineStep st ln = { st with message_lines := st.message_lines ++ [ln] } := by
  unfold wevStructural at h
  dsimp only at h
  simp only [Bool.or_eq_false_iff] at h
  obtain ⟨⟨⟨⟨⟨h1, h2⟩, h3⟩, h4⟩, h5⟩, h6⟩ := h
  unfold wevLineStep
  dsimp only
  rw [if_neg (by simp [h1]), if_neg (by simp [h2]),
    if_neg (by simp [h3, h4]), if_neg (by simp [h5]), if_neg (by simp [h6])]

theorem wevLineStep_ml_good (st : WevState) (l : List Char)
    (hl : l ≠ [] ∧ pyStrip l = l) :
    ∀ m ∈ (wevLineStep st l).message_lines,
      m ∈ st.message_lines ∨ (m ≠ [] ∧ pyStrip m = m) := by
  unfold wevLineStep
  dsimp only
  split_ifs with h1 h2 h3 h4 h5 h6 <;> intro m hm
  · exact Or.inl hm
  · exact Or.inl hm
  · exact Or.inl hm
  · exact Or.inl hm
  · rcases List.mem_append.mp hm with hmem | hmem
    · exact Or.inl hmem
    · simp only [List.mem_singleton] at hmem
      subst hmem
      exact Or.inr ⟨h6, pyStrip_idem _⟩
  · exact Or.inl hm
  · rcases List.mem_append.mp hm with hmem | hmem
    · exact Or.inl hmem
    · simp only [List.mem_singleton] at hmem
      subst hmem
      exact Or.inr hl

theorem foldl_ml_good :
    ∀ (lines : List (List Char)) (st : WevState),
      (∀ l ∈ lines, l ≠ [] ∧ pyStrip l = l) →
      (∀ m ∈ st.message_lines, m ≠ [] ∧ pyStrip m = m) →
      ∀ m ∈ (lines.foldl wevLineStep st).message_lines, m ≠ [] ∧ pyStrip m = m := by
  intro lines
  induction lines with
  | nil => intro st hlines hst m hm; exact hst m hm
  | cons l ls ih =>
    intro st hlines hst m hm
    rw [List.foldl_cons] at hm
    refine ih (wevLineStep st l) (fun x hx => hlines x (List.mem_cons_of_mem _ hx)) ?_ m hm
    intro x hx
    rcases wevLineStep_ml_good st l (hlines l (List.mem_cons_self _ _)) x hx with hmem | hgood
    · exact hst x hmem
    · exact hgood

theorem wevCleanLines_good (block : List Char) :
    ∀ l ∈ wevCleanLines block, l ≠ [] ∧ pyStrip l = l := by
  intro l hl
  obtain ⟨ln, hmem, hsome⟩ := List.mem_filterMap.mp hl
  split at hsome
  · rename_i hg
    cases hsome
    exact ⟨hg, pyStrip_idem _⟩
  · cases hsome

theorem wevFields_ml_good (block : List Char) :
    ∀ m ∈ (wevFields block).message_lines, m ≠ [] ∧ pyStrip m = m := by
  unfold wevFields
  exact foldl_ml_good _ _ (wevCleanLines_good block) (by intro m hm; cases hm)

theorem strip_joinWith_sp_ne_nil {ml : List (List Char)} (hml : ml ≠ [])
    (hgood : ∀ m ∈ ml, m ≠ [] ∧ pyStrip m = m) :
    pyStrip (joinWith [' '] ml) ≠ [] := by
  rcases ml with _ | ⟨m, ms⟩
  · exact absurd rfl hml
  · have hm := hgood m (List.mem_cons_self _ _)
    obtain ⟨a, t, hat, hna⟩ := stripped_ne_nil_head hm.2 hm.1
    exact pyStrip_ne_nil_of_mem (mem_joinWith_head (hat ▸ List.mem_cons_self a t)) hna

theorem tabJoin_eq_nil_iff {parts : List (List Char)}
    (h : ∀ p ∈ parts, p ≠ []) : tabJoin parts = [] ↔ parts = [] := by
  rcases parts with _ | ⟨x, rest⟩
  · exact ⟨fun _ => rfl, fun _ => rfl⟩
  · constructor
    · intro hnil
      exfalso
      rcases rest with _ | ⟨y, rest2⟩
      · exact h x (List.mem_cons_self _ _) hnil
      · rw [tabJoin, joinWith] at hnil
        rw [List.append_assoc, List.append_eq_nil] at hnil
        exact h x (List.mem_cons_self _ _) hnil.1
    · intro hc; cases hc

/-- The truncated joined message of `wevAssemble` is empty exactly when
no message lines were accumulated. -/
theorem wevMessage_eq_nil_iff {ml : List (List Char)}
    (hgood : ∀ m ∈ ml, m ≠ [] ∧ pyStrip m = m) :
    (if 300 < (pyStrip (joinWith [' '] ml)).length
      then (pyStrip (joinWith [' '] ml)).take 300 ++ "...".data
      else pyStrip (joinWith [' '] ml)) = [] ↔ ml = [] := by
  rcases hml : ml with _ | ⟨m, ms⟩
  · simp only [joinWith]
    rw [show pyStrip [] = [] from rfl]
    simp
  · rw [← hml]
    have hne : pyStrip (joinWith [' '] ml) ≠ [] := by
      rw [hml]
      exact strip_joinWith_sp_ne_nil (by simp) (hml ▸ hgood)
    constructor
    · intro heq
      split at heq
      · rw [List.append_eq_nil] at heq
        simp at heq
      · exact absurd heq hne
    · intro hc
      rw [hml] at hc
      cases hc

theorem filter_nonempty_mem {l : List (List Char)} {p : List Char}
    (hp : p ∈ l.filter fun q => ¬ q.isEmpty) : p ≠ [] := by
  have h := List.of_mem_filter hp
  simpa [List.isEmpty_iff] using h

theorem tabJoin_filter_eq_nil_iff (l : List (List Char)) :
    tabJoin (l.filter fun q => ¬ q.isEmpty) = [] ↔ ∀ q ∈ l, q = [] := by
  rw [tabJoin_eq_nil_iff (fun p hp => filter_nonempty_mem hp)]
  rw [List.filter_eq_nil_iff]
  constructor
  · intro h q hq
    have hh := h q hq
    simpa [List.isEmpty_iff] using hh
  · intro h q hq
    have hh := h q hq
    simp [hh]

/-- The filtered parts list of the summary assembly
(`win_event_reader.py` line 164). -/
def wevParts (st : WevState) : List (List Char) :=
  let message0 := pyStrip (joinWith [' '] st.message_lines)
  let message := if 300 < message0.length then message0.take 300 ++ "...".data
    else message0
  [st.date, st.provider,
    (if st.event_id ≠ [] then "ID:".data ++ st.event_id else []),
    (if st.level ≠ [] then "Level:".data ++ st.level else []),
    message].filter fun p => ¬ p.isEmpty

theorem wevAssemble_eq_tabJoin (st : WevState) :
    wevAssemble st = tabJoin (wevParts st) := rfl

theorem wevParts_ne_nil_mem {st : WevState} {p : List Char}
    (hp : p ∈ wevParts st) : p ≠ [] := by
  simp only [wevParts] at hp
  exact filter_nonempty_mem hp

theorem wevAssemble_eq_nil_iff (st : WevState)
    (hgood : ∀ m ∈ st.message_lines, m ≠ [] ∧ pyStrip m = m) :
    wevAssemble st = [] ↔
      st.date = [] ∧ st.provider = [] ∧ st.event_id = [] ∧ st.level = [] ∧
      st.message_lines = [] := by
  have hmsg := wevMessage_eq_nil_iff hgood
  have hid : (if st.event_id ≠ [] then "ID:".data ++ st.event_id else []) = []
      ↔ st.event_id = [] := by
    by_cases h : st.event_id = []
    · simp [h]
    · simp [h, List.append_eq_nil, show "ID:".data ≠ [] from by decide]
  have hlvl : (if st.level ≠ [] then "Level:".data ++ st.level else []) = []
      ↔ st.level = [] := by
    by_cases h : st.level = []
    · simp [h]
    · simp [h, List.append_eq_nil, show "Level:".data ≠ [] from by decide]
  simp only [wevAssemble]
  rw [tabJoin_filter_eq_nil_iff]
  simp only [List.forall_mem_cons, List.not_mem_nil, forall_eq, List.forall_mem_ne,
    and_true]
  rw [hid, hlvl, hmsg]
  constructor
  · rintro ⟨h1, h2, h3, h4, h5, _⟩
    exact ⟨h1, h2, h3, h4, h5⟩
  · rintro ⟨h1, h2, h3, h4, h5⟩
    exact ⟨h1, h2, h3, h4, h5, fun x hx => hx.elim⟩

theorem parse_block_none_iff (block : List Char) :
    _parse_wevtutil_output_block block = none ↔
      block = [] ∨ pyStrip block = [] ∨
      ((wevFields block).date = [] ∧ (wevFields block).provider = [] ∧
       (wevFields block).event_id = [] ∧ (wevFields block).level = [] ∧
       (wevFields block).message_lines = []) := by
  unfold _parse_wevtutil_output_block
  by_cases h : block = [] ∨ pyStrip block = []
  · rw [if_pos h]
    constructor
    · intro _
      rcases h with h | h
      · exact Or.inl h
      · exact Or.inr (Or.inl h)
    · intro _; rfl
  · rw [if_neg h]
    dsimp only
    constructor
    · intro hnone
      by_cases hs : wevAssemble (wevFields block) = []
      · exact Or.inr (Or.inr
          ((wevAssemble_eq_nil_iff _ (wevFields_ml_good block)).mp hs))
      · rw [if_pos hs] at hnone
        cases hnone
    · intro hdisj
      rcases hdisj with h1 | h1 | h1
      · exact absurd (Or.inl h1) h
      · exact absurd (Or.inr h1) h
      · have hs : wevAssemble (wevFields block) = [] :=
          (wevAssemble_eq_nil_iff _ (wevFields_ml_good block)).mpr h1
        rw [if_neg (fun hc => hc hs)]

/-- C6: `_parse_wevtutil_output_block` recognizes the case-insensitive
field prefixes date, provider, event id (in both spellings) and level,
taking the stripped text after the first colon; a line matching none of
the structural prefixes is appended to the accumulated message content;
every summary it returns is a tab-join of non-empty parts (the same shape
`_format_win32_event` assembles natively); and it returns no summary
exactly for blocks that are empty, whitespace-only, or yield no
extractable field and no message content. -/
theorem wevtutil_block_recognition :
    (∀ st pre rest, lowerL pre = "date:".data →
      wevLineStep st (pre ++ rest) = { st with date := pyStrip rest }) ∧
    (∀ st pre rest, lowerL pre = "provider:".data →
      wevLineStep st (pre ++ rest) = { st with provider := pyStrip rest }) ∧
    (∀ st pre rest, lowerL pre = "event id:".data ∨ lowerL pre = "eventid:".data →
      wevLineStep st (pre ++ rest) = { st with event_id := pyStrip rest }) ∧
    (∀ st pre rest, lowerL pre = "level:".data →
      wevLineStep st (pre ++ rest) = { st with level := pyStrip rest }) ∧
    (∀ st ln, wevStructural ln = false →
      wevLineStep st ln = { st with message_lines := st.message_lines ++ [ln] }) ∧
    (∀ block s, _parse_wevtutil_output_block block = some s →
      ∃ parts, parts ≠ [] ∧ (∀ p ∈ parts, p ≠ []) ∧ s = tabJoin parts) ∧
    (∀ block, _parse_wevtutil_output_block block = none ↔
      block = [] ∨ pyStrip block = [] ∨
      ((wevFields block).date = [] ∧ (wevFields block).provider = [] ∧
       (wevFields block).event_id = [] ∧ (wevFields block).level = [] ∧
       (wevFields block).message_lines = [])) := by
  refine ⟨wevLineStep_date, wevLineStep_provider, wevLineStep_event_id,
    wevLineStep_level, wevLineStep_unrecognized, ?_, parse_block_none_iff⟩
  intro block s hsome
  unfold _parse_wevtutil_output_block at hsome
  by_cases h : block = [] ∨ pyStrip block = []
  · rw [if_pos h] at hsome
    cases hsome
  · rw [if_neg h] at hsome
    dsimp only at hsome
    by_cases hs : wevAssemble (wevFields block) = []
    · rw [if_neg (fun hc => hc hs)] at hsome
      cases hsome
    · rw [if_pos hs] at hsome
      cases hsome
      refine ⟨wevParts (wevFields block), ?_,
        fun p hp => wevParts_ne_nil_mem hp, wevAssemble_eq_tabJoin _⟩
      intro hpn
      exact hs (by rw [wevAssemble_eq_tabJoin, hpn]; rfl)

theorem wevtutil_block_recognition_witness :
    (wevLineStep ⟨[], [], [], [], []⟩ ("DaTe:".data ++ " 2024-01-25 10:33:22".data)
      = ⟨"2024-01-25 10:33:22".data, [], [], [], []⟩) ∧
    (wevLineStep ⟨[], [], [], [], []⟩ ("PROVIDER:".data ++ " Kernel".data)
      = ⟨[], "Kernel".data, [], [], []⟩) ∧
    (wevLineStep ⟨[], [], [], [], []⟩ ("EventID:".data ++ " 41".data)
      = ⟨[], [], "41".data, [], []⟩) ∧
    (wevLineStep ⟨[], [], [], [], []⟩ ("Level:".data ++ " Error".data)
      = ⟨[], [], [], "Error".data, []⟩) ∧
    (wevLineStep ⟨[], [], [], [], []⟩ "some free text".data
      = ⟨[], [], [], [], ["some free text".data]⟩) ∧
    (∃ parts, parts ≠ [] ∧ (∀ p ∈ parts, p ≠ []) ∧
      "2024-01-25".data = tabJoin parts) ∧
    _parse_wevtutil_output_block "   ".data = none := by
  refine ⟨?_, ?_, ?_, ?_, ?_, ?_, ?_⟩
  · exact wevtutil_block_recognition.1 ⟨[], [], [], [], []⟩
      "DaTe:".data " 2024-01-25 10:33:22".data (by decide)
  · exact wevtutil_block_recognition.2.1 ⟨[], [], [], [], []⟩
      "PROVIDER:".data " Kernel".data (by decide)
  · exact wevtutil_block_recognition.2.2.1 ⟨[], [], [], [], []⟩
      "EventID:".data " 41".data (Or.inr (by decide))
  · exact wevtutil_block_recognition.2.2.2.1 ⟨[], [], [], [], []⟩
      "Level:".data " Error".data (by decide)
  · exact wevtutil_block_recognition.2.2.2.2.1 ⟨[], [], [], [], []⟩
      "some free text".data (by decide)
  · exact wevtutil_block_recognition.2.2.2.2.2.1 "Date: 2024-01-25".data
      "2024-01-25".data (by decide)
  · exact (wevtutil_block_recognition.2.2.2.2.2.2 "   ".data).mpr
      (Or.inr (Or.inl (by decide)))

end LogAnalyzer
